import Mathlib

/-!
Verification development for the booklet layout engine
(source: src/unnamed/part_001, the packing / partition / index logic of
combine.js-style booklet generation).

The JavaScript source computes with IEEE numbers; here every definition is
parametrised over a linear ordered ring with a floor function (the packer
performs only +, -, *, comparisons, Math.floor and Math.ceil; the single
division of the program, the scale resolver, is defined over the rationals).
Concrete examples are evaluated over the integers, matching the integral
values used by the specification's worked examples.
-/

namespace Booklet

/-- An image record as produced by the catalog analysis step of
combinePDFs (part_001 lines 207-221): a filename plus pixel dimensions.
The identifier (path) is kept as the filename string. -/
structure Image (α : Type) where
  filename : String
  width : α
  height : α
deriving DecidableEq

/-- An item prepared for packing (part_001 lines 28-32): the image together
with its scaled height, mirroring the JS spread that annotates each image
with scaledHeight = img.height * scale. -/
structure Item (α : Type) where
  img : Image α
  scaledHeight : α
deriving DecidableEq

variable {α : Type} [LinearOrderedCommRing α]

/-- Items preparation of groupImagesIntoPages (part_001 lines 28-32). -/
def mkItems (images : List (Image α)) (scale : α) : List (Item α) :=
  images.map (fun img => ⟨img, img.height * scale⟩)

/-- Stable insertion of x into l, keeping every y with le y x before x.
Together with stableSortBy this models the (stable, ES2019) JS
Array.prototype.sort with a consistent comparator cmp, where
le y x means cmp(y, x) <= 0. -/
def insertBy (le : β → β → Bool) (x : β) : List β → List β
  | [] => [x]
  | y :: l => if le y x then y :: insertBy le x l else x :: y :: l

/-- Stable sort (model of JS Array.prototype.sort, which is stable):
elements are inserted left to right, so comparator-equal elements keep
their original relative order. -/
def stableSortBy (le : β → β → Bool) (l : List β) : List β :=
  l.foldl (fun acc x => insertBy le x acc) []

/-- Descending sort by scaledHeight: the JS comparator
(a, b) => b.scaledHeight - a.scaledHeight, i.e. a stays before b
iff b.scaledHeight <= a.scaledHeight (part_001 lines 40-42 and 139). -/
def sortDescBy (l : List (Item α)) : List (Item α) :=
  stableSortBy (fun a b => decide (b.scaledHeight ≤ a.scaledHeight)) l

/-- Used height of a page (the reduce of the score function, part_001
lines 160-163): the sum of scaled heights plus one gap for every item
after the first. -/
def usedHeight (gap : α) : List (Item α) → α
  | [] => 0
  | x :: xs => x.scaledHeight + ((xs.map (fun it => it.scaledHeight)).sum + (xs.length : α) * gap)

/-- Total slack of a packing (part_001 lines 158-165):
the sum over pages of max(0, contentHeight - usedHeight). -/
def totalSlack (contentHeight gap : α) (pages : List (List (Item α))) : α :=
  (pages.map (fun page => max 0 (contentHeight - usedHeight gap page))).sum

/-- A page of the BFD heuristic (part_001 line 43): its item list together
with the running used counter maintained by the JS code. -/
structure BPage (α : Type) where
  items : List (Item α)
  used : α
deriving DecidableEq

/-- The best-fit scan of packWithBFD (part_001 lines 45-57): fold over the
open pages, remembering the page index of smallest residual among those
the item still fits on (strict improvement only, hence the earliest page
on residual ties; none plays the role of bestIdx = -1 / Infinity). -/
def bestFit (capacity gap : α) (pages : List (BPage α)) (it : Item α) : Option (α × ℕ) :=
  pages.enum.foldl
    (fun (acc : Option (α × ℕ)) (p : ℕ × BPage α) =>
      let needed := (if 0 < p.2.used then gap else 0) + it.scaledHeight
      if p.2.used + needed ≤ capacity then
        let residual := capacity - (p.2.used + needed)
        match acc with
        | none => some (residual, p.1)
        | some (br, bi) => if residual < br then some (residual, p.1) else some (br, bi)
      else acc)
    none

/-- One insertion step of packWithBFD (part_001 lines 58-64): open a new
page if nothing fits, else push onto the best-fitting page and bump its
used counter by gap (page nonempty) plus the item height. -/
def bfdStep (capacity gap : α) (pages : List (BPage α)) (it : Item α) : List (BPage α) :=
  match bestFit capacity gap pages it with
  | none => pages ++ [⟨[it], it.scaledHeight⟩]
  | some (_, i) =>
    match pages[i]? with
    | some pg => pages.set i ⟨pg.items ++ [it], pg.used + ((if 0 < pg.used then gap else 0) + it.scaledHeight)⟩
    | none => pages

/-- Heuristic 1 of groupImagesIntoPages: Best-Fit Decreasing
(part_001 lines 39-67). -/
def packWithBFD (itemsList : List (Item α)) (capacity gap : α) : List (List (Item α)) :=
  ((sortDescBy itemsList).foldl (bfdStep capacity gap) []).map (fun p => p.items)

/-- A dynamic-programming cell of packWithKnapsack (part_001 lines 91-94):
none models dpVal[w] = -1 (with dpSet[w] = null), some (v, s) models
dpVal[w] = v, dpSet[w] = s.  Item values are floors of nonnegative scaled
heights in every call of the program, so a reachable cell never carries
the sentinel value -1 and the Option encoding is exact. -/
def DPCell : Type := Option (ℤ × List ℕ)

/-- The inner update for one cell (part_001 lines 99-112): read the cell at
w - wi (of the state before item i was processed, which is what the JS
downward loop reads), and improve the cell at w if the candidate value is
larger, or equal with a larger chosen subset. -/
def dpCombine (vi : ℤ) (i : ℕ) (cur prev : DPCell) : DPCell :=
  match prev with
  | none => cur
  | some (v, s) =>
    let cand := v + vi
    let candSet := s ++ [i]
    match cur with
    | none => some (cand, candSet)
    | some (cv, cs) =>
      if cv < cand then some (cand, candSet)
      else if cand = cv ∧ cs.length < candSet.length then some (cand, candSet)
      else some (cv, cs)

/-- One item pass of the 0/1 knapsack DP (part_001 lines 96-113).  The JS
state is an array indexed 0..capW; it is modelled as a function on ℕ that
is only ever updated inside the array bounds (wi <= w <= capW, the range
of the JS inner loop). -/
def dpStep (capW wi : ℕ) (vi : ℤ) (i : ℕ) (st : ℕ → DPCell) : ℕ → DPCell :=
  fun w => if wi ≤ w ∧ w ≤ capW then dpCombine vi i (st w) (st (w - wi)) else st w

/-- The initial DP state (part_001 lines 91-94): dpVal[0] = 0 with the
empty chosen set, every other cell unreachable. -/
def dpInit : ℕ → DPCell :=
  fun w => if w = 0 then some (0, []) else none

/-- The full DP over all n items (part_001 lines 96-113): item i uses its
rounded weight and value. -/
def runDP (weights : List ℕ) (values : List ℤ) (capW : ℕ) : ℕ → DPCell :=
  (List.range weights.length).foldl
    (fun st i => dpStep capW (weights.getD i 0) (values.getD i 0) i st) dpInit

/-- dpVal read of a cell, with the JS sentinel -1 for unreachable cells. -/
def entryVal : DPCell → ℤ
  | none => -1
  | some (v, _) => v

/-- The best-filled-weight scan of packWithKnapsack (part_001 lines
115-123): scan w = 0..capW keeping the first w of maximal dpVal[w]
(strict improvement only, starting from bestVal = -1, bestW = 0). -/
def pickBest (capW : ℕ) (st : ℕ → DPCell) : ℕ :=
  ((List.range (capW + 1)).foldl
    (fun (best : ℤ × ℕ) (w : ℕ) =>
      if best.1 < entryVal (st w) then (entryVal (st w), w) else best)
    ((-1 : ℤ), 0)).2

/-- The index of the tallest remaining item (part_001 lines 127-132):
first occurrence of the maximal scaledHeight (JS scans with a strict
comparison from index 1; folding the same comparison over 0..n-1 visits
index 0 first with no effect). -/
def tallestIdx (rest : List (Item α)) : ℕ :=
  ((List.range rest.length).foldl
    (fun t i =>
      if (rest.getD t ⟨⟨"", 0, 0⟩, 0⟩).scaledHeight < (rest.getD i ⟨⟨"", 0, 0⟩, 0⟩).scaledHeight
      then i else t)
    0)

variable [FloorRing α]

/-- The rounded item weights of one knapsack round (part_001 line 87):
Math.ceil(scaledHeight + gap).  All call sites have nonnegative heights
and gap, where Int.toNat is exact. -/
def restWeights (gap : α) (rest : List (Item α)) : List ℕ :=
  rest.map (fun it => (⌈it.scaledHeight + gap⌉).toNat)

/-- The rounded item values of one knapsack round (part_001 line 88):
Math.floor(scaledHeight). -/
def restValues (rest : List (Item α)) : List ℤ :=
  rest.map (fun it => ⌊it.scaledHeight⌋)

/-- The rounded DP capacity (part_001 line 84): Math.floor(capacity + gap).
All call sites have nonnegative capacity and gap, where Int.toNat is
exact. -/
def capWOf (capacity gap : α) : ℕ :=
  (⌊capacity + gap⌋).toNat

/-- The DP state of one knapsack round on the remaining items. -/
def dpOf (capacity gap : α) (rest : List (Item α)) : ℕ → DPCell :=
  runDP (restWeights gap rest) (restValues rest) (capWOf capacity gap)

/-- The chosen index set read off the DP (part_001 line 125):
dpSet[bestW] || []. -/
def chosenOf (capacity gap : α) (rest : List (Item α)) : List ℕ :=
  match dpOf capacity gap rest (pickBest (capWOf capacity gap) (dpOf capacity gap rest)) with
  | some (_, s) => s
  | none => []

/-- The chosen indices of one knapsack round with the progress fallback
(part_001 lines 125-133): if the DP chose nothing, place the tallest
remaining item alone. -/
def knapSelect (capacity gap : α) (rest : List (Item α)) : List ℕ :=
  if chosenOf capacity gap rest = [] then [tallestIdx rest] else chosenOf capacity gap rest

/-- One round of the knapsack loop (part_001 lines 135-148): build the page
from the chosen indices (sorted tallest first for layout) and remove the
chosen items from the remaining list.  Returns (page, new rest). -/
def knapStep (capacity gap : α) (rest : List (Item α)) : List (Item α) × List (Item α) :=
  let chosen := knapSelect capacity gap rest
  (sortDescBy (chosen.map (fun i => rest.getD i ⟨⟨"", 0, 0⟩, 0⟩)),
   (rest.enum.filter (fun p => decide (p.1 ∉ chosen))).map (fun p => p.2))

/-- The while loop of packWithKnapsack (part_001 lines 85-149).  The JS
loop runs while rest is nonempty; every round removes at least one item
(theorem knapStep_decreasing below), so running it with fuel
rest.length is exact. -/
def knapLoop (capacity gap : α) : ℕ → List (Item α) → List (List (Item α))
  | _, [] => []
  | 0, _ :: _ => []
  | fuel + 1, it :: rest =>
    let pr := knapStep capacity gap (it :: rest)
    pr.1 :: knapLoop capacity gap fuel pr.2

/-- Heuristic 2 of groupImagesIntoPages: iterative per-page 0/1 knapsack
(part_001 lines 70-152).  Oversized items (scaledHeight > capacity) first
get a dedicated page each, then the loop packs the rest. -/
def packWithKnapsack (itemsList : List (Item α)) (capacity gap : α) : List (List (Item α)) :=
  let oversized := itemsList.filter (fun it => decide (capacity < it.scaledHeight))
  let rest := itemsList.filter (fun it => decide (it.scaledHeight ≤ capacity))
  oversized.map (fun it => [it]) ++ knapLoop capacity gap rest.length rest

/-- The engine of groupImagesIntoPages before stripping the helpers
(part_001 lines 154-179): run both heuristics and keep the better one
(fewest pages; tie broken by total slack, the knapsack result winning
exact ties). -/
def groupPages (images : List (Image α)) (contentHeight scale gap : α) : List (List (Item α)) :=
  let items := mkItems images scale
  let pagesBFD := packWithBFD items contentHeight gap
  let pagesDP := packWithKnapsack items contentHeight gap
  if pagesDP.length < pagesBFD.length then pagesDP
  else if pagesBFD.length < pagesDP.length then pagesBFD
  else if totalSlack contentHeight gap pagesDP ≤ totalSlack contentHeight gap pagesBFD then pagesDP
  else pagesBFD

/-- groupImagesIntoPages (part_001 lines 26-181): the selected packing with
helper fields stripped (stripHelpers, lines 35-36: back to the original
image records). -/
def groupImagesIntoPages (images : List (Image α)) (contentHeight scale gap : α) :
    List (List (Image α)) :=
  (groupPages images contentHeight scale gap).map (fun page => page.map (fun it => it.img))

/-- Model of path.basename: the characters after the last path separator
(part_001 line 252). -/
def basename (s : String) : String :=
  String.mk (s.data.foldl (fun acc c => if c = '/' then [] else acc ++ [c]) [])

/-- Model of String.prototype.trim: strip leading and trailing whitespace. -/
def trimStr (s : String) : String :=
  String.mk (((s.data.dropWhile Char.isWhitespace).reverse.dropWhile Char.isWhitespace).reverse)

/-- The baseline filename set (part_001 lines 244-253): keep the nonblank
lines, trimmed, and take each one's basename.  (The JS code builds a Set;
membership in the list is the same predicate.) -/
def baselineNames (lines : List String) : List String :=
  ((lines.filter (fun l => decide (trimStr l ≠ ""))).map trimStr).map basename

/-- The baseline partitioner (part_001 lines 236-262): with no baseline
file the whole catalog is original and the appendix is empty; with a
baseline, original keeps the catalog items whose filename is in the
baseline set and appendix keeps the others, both in catalog order. -/
def partition (catalog : List (Image α)) (baseline : Option (List String)) :
    List (Image α) × List (Image α) :=
  match baseline with
  | none => (catalog, [])
  | some lines =>
    (catalog.filter (fun img => decide (img.filename ∈ baselineNames lines)),
     catalog.filter (fun img => decide (img.filename ∉ baselineNames lines)))

/-- Math.max over the catalog widths (part_001 line 367).  Only evaluated
on nonempty catalogs (the program returns before this point otherwise). -/
def maxWidthPx : List (Image ℚ) → ℚ
  | [] => 0
  | img :: rest => rest.foldl (fun m i => max m i.width) img.width

/-- The scale resolver (part_001 lines 227-230 and 366-368): none models
the early abort of the booklet on an empty catalog ("No valid PNG files
to render."), otherwise the single global scale
contentWidth / maxWidthPx. -/
def resolveScale (contentWidth : ℚ) (items : List (Image ℚ)) : Option ℚ :=
  match items with
  | [] => none
  | _ :: _ => some (contentWidth / maxWidthPx items)

/-- Case-insensitive strip of a trailing ".png"
(the replace(/\.png$/i, "") of part_001 line 409). -/
def stripPngChars (cs : List Char) : List Char :=
  if 4 ≤ cs.length ∧ (cs.drop (cs.length - 4)).map Char.toLower = ['.', 'p', 'n', 'g']
  then cs.take (cs.length - 4) else cs

/-- Whether cs matches the whole anchored pattern "-INSTR-digits$"
case-insensitively, digits nonempty (the RegExp of part_001 lines
410-413; escapeRegExp only guards regex metacharacters, which the
instrument names are free of, so the instrument matches literally). -/
def matchInstrTail (instr cs : List Char) : Bool :=
  match cs with
  | [] => false
  | c :: rest =>
    decide (c = '-') &&
    decide ((rest.take instr.length).map Char.toLower = instr.map Char.toLower) &&
    (match rest.drop instr.length with
     | '-' :: ds => decide (ds ≠ []) && ds.all Char.isDigit
     | _ => false)

/-- Leftmost-match replacement with "" of the anchored suffix pattern:
scan left to right and cut at the first position whose tail matches. -/
def stripInstr (instr : List Char) : List Char → List Char
  | [] => []
  | c :: cs => if matchInstrTail instr (c :: cs) then [] else c :: stripInstr instr cs

/-- The derived title of an image (part_001 lines 408-413): drop the ".png"
extension, then an instrument suffix "-INSTR-NNN". -/
def deriveTitle (instrFile : String) (filename : String) : String :=
  String.mk (stripInstr instrFile.data (stripPngChars filename.data))

/-- Numeric value of a digit character. -/
def digitVal (c : Char) : ℕ := c.toNat - 48

/-- Collation key: digit runs become a (0, value) block, other characters a
(1, lowercase code point) block, so digit runs compare numerically and
letters case-insensitively, digits ordering before letters.  Models the
ECMAScript localeCompare of part_001 lines 442-447 with numeric: true and
sensitivity: "base" on ASCII titles. -/
def natKeyAux : Option ℕ → List Char → List ℕ
  | none, [] => []
  | some n, [] => [0, n]
  | acc, c :: cs =>
    if c.isDigit then natKeyAux (some (acc.getD 0 * 10 + digitVal c)) cs
    else
      match acc with
      | none => 1 :: c.toLower.toNat :: natKeyAux none cs
      | some n => 0 :: n :: 1 :: c.toLower.toNat :: natKeyAux none cs

/-- Collation key of a title. -/
def natKey (s : String) : List ℕ := natKeyAux none s.data

/-- Lexicographic comparison of collation keys, a shorter key that is a
leading part of the longer comparing first. -/
def leKeys : List ℕ → List ℕ → Bool
  | [], _ => true
  | _ :: _, [] => false
  | a :: as, b :: bs => if a < b then true else if b < a then false else leKeys as bs

/-- Whether title a sorts no later than title b: the comparator of the
index sort (part_001 lines 442-447). -/
def titleLe (a b : String) : Bool := leKeys (natKey a) (natKey b)

/-- One index entry (part_001 lines 407-417): derived title, 1-based target
page number, 0-based target page index for link wiring, and the section
tag. -/
structure IndexEntry where
  title : String
  page : ℕ
  pageIndex : ℕ
  sec : String
deriving DecidableEq

/-- The entry built for one image on one page. -/
def mkEntry (instrFile : String) (pageNum pageIdx : ℕ) (s : String) (img : Image α) :
    IndexEntry :=
  ⟨deriveTitle instrFile img.filename, pageNum, pageIdx, s⟩

/-- The index entry list before sorting (part_001 lines 404-439): one entry
per image of every original page (page = pIdx + 1), then, if an appendix
exists, one per image of every appendix page with both numbers offset by
the original page count. -/
def buildIndexEntries (instrFile : String)
    (originalPages appendixPages : List (List (Image α))) (hasAppendix : Bool) :
    List IndexEntry :=
  originalPages.enum.flatMap
    (fun p => p.2.map (mkEntry instrFile (p.1 + 1) p.1 "original"))
  ++ (if hasAppendix then
        appendixPages.enum.flatMap
          (fun p => p.2.map (mkEntry instrFile (originalPages.length + p.1 + 1)
            (originalPages.length + p.1) "appendix"))
      else [])

/-- The sorted index (part_001 lines 442-447). -/
def sortEntries (entries : List IndexEntry) : List IndexEntry :=
  stableSortBy (fun a b => titleLe a.title b.title) entries

/-- The index entry list of a whole booklet run (part_001 lines 236-447):
partition, pack each section, build and sort the entries. -/
def bookletIndexEntries (instrFile : String) (catalog : List (Image α))
    (baseline : Option (List String)) (contentHeight scale gap : α) : List IndexEntry :=
  let pr := partition catalog baseline
  let originalPages := groupImagesIntoPages pr.1 contentHeight scale gap
  let hasAppendix : Bool := decide (0 < pr.2.length)
  let appendixPages := if hasAppendix then groupImagesIntoPages pr.2 contentHeight scale gap else []
  sortEntries (buildIndexEntries instrFile originalPages appendixPages hasAppendix)

/-- The image pages of a whole booklet run (part_001 lines 372-390):
original pages then appendix pages; no font is involved. -/
def bookletPages (catalog : List (Image α)) (baseline : Option (List String))
    (contentHeight scale gap : α) : List (List (Image α)) :=
  let pr := partition catalog baseline
  let originalPages := groupImagesIntoPages pr.1 contentHeight scale gap
  let hasAppendix : Bool := decide (0 < pr.2.length)
  let appendixPages := if hasAppendix then groupImagesIntoPages pr.2 contentHeight scale gap else []
  originalPages ++ appendixPages

/-- The index section of a booklet run (part_001 line 399): the whole index
block runs only under "if (font && validImages.length > 0)"; without a
font the index is skipped entirely (the warning of lines 314-318). -/
def bookletIndexOpt (hasFont : Bool) (instrFile : String) (catalog : List (Image α))
    (baseline : Option (List String)) (contentHeight scale gap : α) :
    Option (List IndexEntry) :=
  if hasFont && decide (0 < catalog.length)
  then some (bookletIndexEntries instrFile catalog baseline contentHeight scale gap)
  else none

/-- A booklet run observed through its index section and its image pages
(part_001 lines 186-917, drawing elided): the pages never depend on the
font. -/
def assembleBooklet (hasFont : Bool) (instrFile : String) (catalog : List (Image α))
    (baseline : Option (List String)) (contentHeight scale gap : α) :
    Option (List IndexEntry) × List (List (Image α)) :=
  (bookletIndexOpt hasFont instrFile catalog baseline contentHeight scale gap,
   bookletPages catalog baseline contentHeight scale gap)

/-- The packing invariant of one page: its used height fits the content
height, except for a dedicated page holding exactly one oversized item. -/
def pageOk (contentHeight gap : α) (page : List (Item α)) : Prop :=
  usedHeight gap page ≤ contentHeight ∨
    ∃ it, page = [it] ∧ contentHeight < it.scaledHeight

/-- Invariant of the BFD page accumulator: every open page is nonempty,
its used counter equals the recomputed used height, its items all have
positive scaled height, and it either fits the capacity or is a dedicated
page of a single oversized item. -/
def bfdInv (capacity gap : α) (pages : List (BPage α)) : Prop :=
  ∀ pg ∈ pages, pg.items ≠ [] ∧ pg.used = usedHeight gap pg.items ∧
    (∀ it ∈ pg.items, 0 < it.scaledHeight) ∧
    (pg.used ≤ capacity ∨ ∃ it, pg.items = [it] ∧ capacity < it.scaledHeight)

/-- Invariant of the knapsack DP state after the first i items were
processed: every reachable cell at weight w carries a strictly increasing
list of item indices below i whose total rounded weight is at most w. -/
def dpGood (weights : List ℕ) (i : ℕ) (st : ℕ → DPCell) : Prop :=
  ∀ w v s, st w = some (v, s) →
    s.Chain' (· < ·) ∧ (∀ j ∈ s, j < i) ∧
      (s.map (fun j => weights.getD j 0)).sum ≤ w

/-- Test fixture: a 100 x 300 image, integer dimensions. -/
def imgA : Image ℤ := ⟨"a.png", 100, 300⟩

/-- Test fixture. -/
def imgB : Image ℤ := ⟨"b.png", 100, 300⟩

/-- Test fixture. -/
def imgC : Image ℤ := ⟨"c.png", 100, 300⟩

/-- Test fixture. -/
def imgD : Image ℤ := ⟨"d.png", 100, 300⟩

/-- Test fixture: a 100 x 300 image, rational dimensions. -/
def imgQ : Image ℚ := ⟨"a.png", 100, 300⟩

/-- Test fixture: a 250 x 80 image, rational dimensions. -/
def imgQ2 : Image ℚ := ⟨"b.png", 250, 80⟩

section Lemmas

/-- Fold invariant principle. -/
theorem foldlInd {β γ : Type} {f : β → γ → β} (P : β → Prop) :
    ∀ (l : List γ) (b : β), P b → (∀ acc x, x ∈ l → P acc → P (f acc x)) →
      P (l.foldl f b) := by
  intro l
  induction l with
  | nil => intro b hb _; exact hb
  | cons y ys ih =>
    intro b hb hstep
    exact ih (f b y) (hstep b y (by simp) hb)
      (fun acc x hx hacc => hstep acc x (by simp [hx]) hacc)

theorem insertBy_perm {β : Type} (le : β → β → Bool) (x : β) :
    ∀ l : List β, List.Perm (insertBy le x l) (x :: l) := by
  intro l
  induction l with
  | nil => simp [insertBy]
  | cons y ys ih =>
    by_cases h : le y x = true
    · simp only [insertBy, h, if_true]
      exact ((ih.cons y).trans (List.Perm.swap x y ys))
    · simp only [insertBy, h]
      simp

theorem stableSortBy_foldl_perm {β : Type} (le : β → β → Bool) :
    ∀ (l acc : List β),
      List.Perm (l.foldl (fun acc x => insertBy le x acc) acc) (acc ++ l) := by
  intro l
  induction l with
  | nil => intro acc; simp
  | cons y ys ih =>
    intro acc
    have h1 := ih (insertBy le y acc)
    have h2 : List.Perm (insertBy le y acc ++ ys) ((y :: acc) ++ ys) :=
      (insertBy_perm le y acc).append_right ys
    have h3 : List.Perm ((y :: acc) ++ ys) (acc ++ y :: ys) := by
      simpa using List.perm_middle.symm
    exact (h1.trans h2).trans h3

theorem stableSortBy_perm {β : Type} (le : β → β → Bool) (l : List β) :
    List.Perm (stableSortBy le l) l := by
  simpa [stableSortBy] using stableSortBy_foldl_perm le l []

theorem mem_insertBy {β : Type} (le : β → β → Bool) (x z : β) (l : List β) :
    z ∈ insertBy le x l ↔ z = x ∨ z ∈ l := by
  rw [(insertBy_perm le x l).mem_iff]
  simp

theorem pairwise_insertBy {β : Type} (le : β → β → Bool)
    (total : ∀ a b, le a b = true ∨ le b a = true)
    (htr : ∀ a b c, le a b = true → le b c = true → le a c = true)
    (x : β) :
    ∀ l : List β, l.Pairwise (fun a b => le a b = true) →
      (insertBy le x l).Pairwise (fun a b => le a b = true) := by
  intro l
  induction l with
  | nil => intro _; simp [insertBy]
  | cons y ys ih =>
    intro h
    rw [List.pairwise_cons] at h
    obtain ⟨hy, hys⟩ := h
    by_cases hxy : le y x = true
    · simp only [insertBy, hxy, if_true]
      rw [List.pairwise_cons]
      constructor
      · intro z hz
        rcases (mem_insertBy le x z ys).mp hz with hzx | hzl
        · rw [hzx]; exact hxy
        · exact hy z hzl
      · exact ih hys
    · simp only [insertBy, hxy]
      simp only [if_false, Bool.false_eq_true]
      have hx : le x y = true := (total x y).resolve_right (by simpa using hxy)
      rw [List.pairwise_cons]
      constructor
      · intro z hz
        rcases List.mem_cons.mp hz with hzy | hzl
        · rw [hzy]; exact hx
        · exact htr x y z hx (hy z hzl)
      · rw [List.pairwise_cons]
        exact ⟨hy, hys⟩

theorem stableSortBy_pairwise {β : Type} (le : β → β → Bool)
    (total : ∀ a b, le a b = true ∨ le b a = true)
    (htr : ∀ a b c, le a b = true → le b c = true → le a c = true)
    (l : List β) :
    (stableSortBy le l).Pairwise (fun a b => le a b = true) := by
  unfold stableSortBy
  exact foldlInd (fun acc => acc.Pairwise (fun a b => le a b = true)) l []
    (by simp) (fun acc x _ hacc => pairwise_insertBy le total htr x acc hacc)

/-- Decomposition of a list around a successful index lookup, together with
the effect of List.set there. -/
theorem get?_some_split {β : Type} (y : β) :
    ∀ (l : List β) (i : ℕ) (x : β), l[i]? = some x →
      ∃ l1 l2, l = l1 ++ x :: l2 ∧ l1.length = i ∧ l.set i y = l1 ++ y :: l2 := by
  intro l
  induction l with
  | nil => intro i x h; simp at h
  | cons z zs ih =>
    intro i x h
    cases i with
    | zero =>
      refine ⟨[], zs, ?_, ?_, ?_⟩ <;> simp_all
    | succ j =>
      simp only [List.getElem?_cons_succ] at h
      obtain ⟨l1, l2, he, hl, hs⟩ := ih j x h
      exact ⟨z :: l1, l2, by simp [he], by simp [hl], by simp [List.set, hs]⟩

theorem getD_mem {β : Type} (d : β) :
    ∀ (l : List β) (i : ℕ), i < l.length → l.getD i d ∈ l := by
  intro l
  induction l with
  | nil => intro i h; simp at h
  | cons z zs ih =>
    intro i h
    cases i with
    | zero => simp [List.getD]
    | succ j =>
      have hmem := ih j (by simpa using h)
      have hred : (z :: zs).getD (j + 1) d = zs.getD j d := by simp [List.getD]
      rw [hred]
      exact List.mem_cons_of_mem z hmem

theorem getD_map {β γ : Type} (g : β → γ) (d : β) :
    ∀ (l : List β) (i : ℕ), i < l.length → (l.map g).getD i (g d) = g (l.getD i d) := by
  intro l
  induction l with
  | nil => intro i h; simp at h
  | cons z zs ih =>
    intro i h
    cases i with
    | zero => simp [List.getD]
    | succ j =>
      have h1 : ((z :: zs).map g).getD (j + 1) (g d) = (zs.map g).getD j (g d) := by
        simp [List.getD]
      have h2 : (z :: zs).getD (j + 1) d = zs.getD j d := by simp [List.getD]
      rw [h1, h2]
      exact ih j (by simpa using h)

theorem map_congr_mem {β γ : Type} :
    ∀ (l : List β) (f g : β → γ), (∀ x ∈ l, f x = g x) → l.map f = l.map g := by
  intro l
  induction l with
  | nil => intro f g _; rfl
  | cons x xs ih =>
    intro f g h
    simp only [List.map]
    rw [h x (by simp), ih f g (fun y hy => h y (by simp [hy]))]

theorem usedHeight_cons_sum (gap : α) (x : Item α) (xs : List (Item α)) :
    usedHeight gap (x :: xs) =
      ((x :: xs).map (fun it => it.scaledHeight)).sum + (xs.length : α) * gap := by
  simp only [usedHeight, List.map_cons, List.sum_cons]
  ring

theorem usedHeight_perm (gap : α) {l l' : List (Item α)} (hp : List.Perm l l') :
    usedHeight gap l = usedHeight gap l' := by
  cases l with
  | nil =>
    have : l' = [] := (hp.symm).eq_nil
    rw [this]
  | cons x xs =>
    cases l' with
    | nil => exact absurd hp.eq_nil (by simp)
    | cons y ys =>
      have hsum := (hp.map (fun it => it.scaledHeight)).sum_eq
      have hlen : xs.length = ys.length := by
        have := hp.length_eq
        simpa using this
      rw [usedHeight_cons_sum, usedHeight_cons_sum, hsum, hlen]

theorem usedHeight_append_single (gap : α) (l : List (Item α)) (x : Item α) :
    usedHeight gap (l ++ [x]) =
      if l = [] then x.scaledHeight
      else usedHeight gap l + (gap + x.scaledHeight) := by
  cases l with
  | nil => simp [usedHeight]
  | cons y ys =>
    rw [if_neg (by simp)]
    simp [usedHeight, List.map_append, List.sum_append]
    push_cast
    ring

theorem usedHeight_pos (gap : α) (l : List (Item α)) (hne : l ≠ [])
    (hall : ∀ it ∈ l, 0 < it.scaledHeight) (hg : 0 ≤ gap) :
    0 < usedHeight gap l := by
  cases l with
  | nil => exact absurd rfl hne
  | cons x xs =>
    have hx : 0 < x.scaledHeight := hall x (by simp)
    have hsum : 0 ≤ (xs.map (fun it => it.scaledHeight)).sum := by
      apply List.sum_nonneg
      intro v hv
      obtain ⟨it, hit, hvv⟩ := List.mem_map.mp hv
      rw [← hvv]
      exact le_of_lt (hall it (by simp [hit]))
    have hlg : 0 ≤ (xs.length : α) * gap :=
      mul_nonneg (by positivity) hg
    have := add_pos_of_pos_of_nonneg hx (add_nonneg hsum hlg)
    simpa [usedHeight] using this

theorem get?_mem_enumFrom {β : Type} (l : List β) (k i : ℕ) (a : β)
    (h : l[i]? = some a) : (k + i, a) ∈ l.enumFrom k := by
  rw [List.mem_iff_getElem?]
  refine ⟨i, ?_⟩
  rw [List.getElem?_enumFrom, h]
  rfl

theorem mem_enumFrom_spec {β : Type} (l : List β) (k : ℕ) (p : ℕ × β)
    (hp : p ∈ l.enumFrom k) : k ≤ p.1 ∧ l[p.1 - k]? = some p.2 := by
  obtain ⟨i, hi⟩ := List.mem_iff_getElem?.mp hp
  rw [List.getElem?_enumFrom] at hi
  cases hgi : l[i]? with
  | none => rw [hgi] at hi; exact absurd hi (by simp)
  | some a =>
    rw [hgi] at hi
    have hi2 : some ((k + i, a) : ℕ × β) = some p := hi
    have hp2 : p = (k + i, a) := (Option.some.inj hi2).symm
    rw [hp2]
    refine ⟨by omega, ?_⟩
    rw [Nat.add_sub_cancel_left]
    exact hgi

/-- The selected items (by a strictly increasing valid index list) together
with the unselected remainder form a permutation of the whole list; this
is the shape of one knapsack round (chosen page plus new rest). -/
theorem extractRemovePerm {β : Type} (d : β) :
    ∀ (l : List β) (k : ℕ) (s : List ℕ), s.Chain' (· < ·) →
      (∀ j ∈ s, k ≤ j ∧ j < k + l.length) →
      List.Perm
        ((s.map (fun i => l.getD (i - k) d)) ++
          ((l.enumFrom k).filter (fun p => decide (p.1 ∉ s))).map (fun p => p.2))
        l := by
  intro l
  induction l with
  | nil =>
    intro k s _ hb
    cases s with
    | nil => simp [List.enumFrom]
    | cons j s2 =>
      have h1 := hb j (by simp)
      simp at h1
      omega
  | cons x xs ih =>
    intro k s hc hb
    have henum : (x :: xs).enumFrom k = (k, x) :: xs.enumFrom (k + 1) := rfl
    by_cases hk : k ∈ s
    · -- the head index k is selected; s must start with k
      obtain ⟨s2, hs2⟩ : ∃ s2, s = k :: s2 := by
        cases s with
        | nil => simp at hk
        | cons j s2 =>
          rcases List.mem_cons.mp hk with hjk | hk2
          · exact ⟨s2, by rw [hjk]⟩
          · have hlt : j < k := by
              have hpair := (List.chain'_iff_pairwise.mp hc)
              exact (List.rel_of_pairwise_cons hpair hk2)
            have := (hb j (by simp)).1
            omega
      subst hs2
      have hs2lt : ∀ j ∈ s2, k < j := by
        intro j hj
        exact List.rel_of_pairwise_cons (List.chain'_iff_pairwise.mp hc) hj
      have hmapeq : s2.map (fun i => (x :: xs).getD (i - k) d) =
          s2.map (fun i => xs.getD (i - (k + 1)) d) := by
        apply map_congr_mem
        intro j hj
        have hkj := hs2lt j hj
        have hji : j - k = (j - (k + 1)) + 1 := by omega
        rw [hji]
        simp [List.getD]
      have hfeq : (xs.enumFrom (k + 1)).filter (fun p => decide (p.1 ∉ k :: s2)) =
          (xs.enumFrom (k + 1)).filter (fun p => decide (p.1 ∉ s2)) := by
        apply List.filter_congr
        intro p hp
        have := (mem_enumFrom_spec xs (k + 1) p hp).1
        simp only [decide_eq_decide, List.mem_cons]
        constructor
        · intro hno hmem; exact hno (Or.inr hmem)
        · intro hno hmem
          rcases hmem with h1 | h2
          · omega
          · exact hno h2
      have hih := ih (k + 1) s2
        (hc.tail)
        (by
          intro j hj
          refine ⟨hs2lt j hj, ?_⟩
          have := (hb j (by simp [hj])).2
          simpa [Nat.add_comm, Nat.add_assoc, Nat.add_left_comm] using this)
      rw [henum]
      have hhd : (x :: xs).getD (k - k) d = x := by simp [List.getD]
      simp only [List.map_cons, hhd, List.filter_cons]
      rw [if_neg (by simp [hk])]
      rw [hmapeq, hfeq]
      exact List.Perm.cons x hih
    · -- the head index k is not selected
      have hge : ∀ j ∈ s, k + 1 ≤ j := by
        intro j hj
        have h1 := (hb j hj).1
        have h2 : j ≠ k := fun he => hk (he ▸ hj)
        omega
      have hmapeq : s.map (fun i => (x :: xs).getD (i - k) d) =
          s.map (fun i => xs.getD (i - (k + 1)) d) := by
        apply map_congr_mem
        intro j hj
        have hkj := hge j hj
        have hji : j - k = (j - (k + 1)) + 1 := by omega
        rw [hji]
        simp [List.getD]
      have hih := ih (k + 1) s hc
        (by
          intro j hj
          refine ⟨hge j hj, ?_⟩
          have := (hb j hj).2
          simpa [Nat.add_comm, Nat.add_assoc, Nat.add_left_comm] using this)
      rw [henum]
      simp only [List.filter_cons]
      rw [if_pos (by simp [hk])]
      simp only [List.map_cons]
      rw [hmapeq]
      refine List.Perm.trans ?_ (List.Perm.cons x hih)
      exact List.perm_middle

/-- extractRemovePerm at offset zero, phrased over List.enum as in the
knapsack step. -/
theorem extractRemovePermZero {β : Type} (d : β) (l : List β) (s : List ℕ)
    (hc : s.Chain' (· < ·)) (hb : ∀ j ∈ s, j < l.length) :
    List.Perm
      ((s.map (fun i => l.getD i d)) ++
        ((l.enum.filter (fun p => decide (p.1 ∉ s))).map (fun p => p.2)))
      l := by
  have h0 := extractRemovePerm d l 0 s hc (by intro j hj; exact ⟨Nat.zero_le j, by simpa using hb j hj⟩)
  have hmap : s.map (fun i => l.getD (i - 0) d) = s.map (fun i => l.getD i d) := by
    apply map_congr_mem
    intro j _
    simp
  rw [hmap] at h0
  simpa [List.enum] using h0

theorem bestFit_some_spec (capacity gap : α) (pages : List (BPage α)) (it : Item α)
    (r : α) (i : ℕ) (h : bestFit capacity gap pages it = some (r, i)) :
    ∃ pg, pages[i]? = some pg ∧
      pg.used + ((if 0 < pg.used then gap else 0) + it.scaledHeight) ≤ capacity := by
  have hfold : (fun acc : Option (α × ℕ) =>
      acc = none ∨ ∃ r2 i2 pg, acc = some (r2, i2) ∧ pages[i2]? = some pg ∧
        pg.used + ((if 0 < pg.used then gap else 0) + it.scaledHeight) ≤ capacity)
      (bestFit capacity gap pages it) := by
    unfold bestFit
    refine foldlInd (fun acc : Option (α × ℕ) =>
      acc = none ∨ ∃ r2 i2 pg, acc = some (r2, i2) ∧ pages[i2]? = some pg ∧
        pg.used + ((if 0 < pg.used then gap else 0) + it.scaledHeight) ≤ capacity)
      pages.enum none (Or.inl rfl) ?_
    intro acc x hx hacc
    have hxspec := mem_enumFrom_spec pages 0 x (by simpa [List.enum] using hx)
    have hget : pages[x.1]? = some x.2 := by simpa using hxspec.2
    dsimp only
    by_cases hcond : x.2.used + ((if 0 < x.2.used then gap else 0) + it.scaledHeight) ≤ capacity
    · rw [if_pos hcond]
      cases acc with
      | none =>
        exact Or.inr ⟨_, x.1, x.2, rfl, hget, hcond⟩
      | some pr =>
        obtain ⟨r2, i2, pg, hpr, hg2, hc2⟩ := hacc.resolve_left (by simp)
        cases hpr
        dsimp only
        by_cases hres : capacity - (x.2.used + ((if 0 < x.2.used then gap else 0) + it.scaledHeight)) < r2
        · rw [if_pos hres]
          exact Or.inr ⟨_, x.1, x.2, rfl, hget, hcond⟩
        · rw [if_neg hres]
          exact Or.inr ⟨r2, i2, pg, rfl, hg2, hc2⟩
    · rw [if_neg hcond]
      exact hacc
  rcases hfold with hnone | ⟨r2, i2, pg, he, hg2, hc2⟩
  · rw [h] at hnone; exact absurd hnone (by simp)
  · rw [h] at he
    injection he with hpair
    injection hpair with h1 h2
    subst h2
    exact ⟨pg, hg2, hc2⟩

theorem bfdStep_inv (capacity gap : α) (hg : 0 ≤ gap) (pages : List (BPage α))
    (it : Item α) (hit : 0 < it.scaledHeight)
    (hinv : bfdInv capacity gap pages) :
    bfdInv capacity gap (bfdStep capacity gap pages it) := by
  unfold bfdStep
  cases hbf : bestFit capacity gap pages it with
  | none =>
    intro pg hpg
    rcases List.mem_append.mp hpg with hold | hnew
    · exact hinv pg hold
    · have hpg2 : pg = ⟨[it], it.scaledHeight⟩ := by simpa using hnew
      subst hpg2
      refine ⟨by simp, by simp [usedHeight], by simpa using hit, ?_⟩
      rcases le_or_lt it.scaledHeight capacity with hle | hgt
      · exact Or.inl hle
      · exact Or.inr ⟨it, rfl, hgt⟩
  | some pr =>
    obtain ⟨r0, i0⟩ := pr
    obtain ⟨pg0, hget, hfit⟩ := bestFit_some_spec capacity gap pages it r0 i0 (by
      rw [hbf])
    dsimp only
    rw [hget]
    dsimp only
    intro pg hpg
    obtain ⟨hne0, hused0, hpos0, _⟩ := hinv pg0 (by
      obtain ⟨l1, l2, hsplit, _, _⟩ := get?_some_split (⟨pg0.items ++ [it],
        pg0.used + ((if 0 < pg0.used then gap else 0) + it.scaledHeight)⟩ : BPage α)
        pages i0 pg0 hget
      rw [hsplit]; simp)
    obtain ⟨l1, l2, hsplit, _, hset⟩ := get?_some_split (⟨pg0.items ++ [it],
      pg0.used + ((if 0 < pg0.used then gap else 0) + it.scaledHeight)⟩ : BPage α)
      pages i0 pg0 hget
    rw [hset] at hpg
    have hused0pos : 0 < pg0.used := by
      rw [hused0]
      exact usedHeight_pos gap pg0.items hne0 hpos0 hg
    rcases List.mem_append.mp hpg with h1 | h2
    · exact hinv pg (by rw [hsplit]; exact List.mem_append_left _ h1)
    · rcases List.mem_cons.mp h2 with hnewpg | h3
      · subst hnewpg
        refine ⟨by simp, ?_, ?_, ?_⟩
        · rw [if_pos hused0pos, usedHeight_append_single, if_neg hne0, hused0]
        · intro it2 hit2
          rcases List.mem_append.mp hit2 with ha | hb
          · exact hpos0 it2 ha
          · have : it2 = it := by simpa using hb
            rw [this]; exact hit
        · exact Or.inl (by
            rw [if_pos hused0pos] at hfit ⊢
            exact hfit)
      · exact hinv pg (by rw [hsplit]; exact List.mem_append_right _ (List.mem_cons_of_mem _ h3))

theorem packWithBFD_inv (capacity gap : α) (hg : 0 ≤ gap) (itemsList : List (Item α))
    (hall : ∀ it ∈ itemsList, 0 < it.scaledHeight) :
    bfdInv capacity gap ((sortDescBy itemsList).foldl (bfdStep capacity gap) []) := by
  refine foldlInd (bfdInv capacity gap) (sortDescBy itemsList) [] ?_ ?_
  · intro pg hpg; simp at hpg
  · intro acc x hx hacc
    have hxmem : x ∈ itemsList := ((stableSortBy_perm _ itemsList).mem_iff).mp hx
    exact bfdStep_inv capacity gap hg acc x (hall x hxmem) hacc

theorem packWithBFD_pageOk (capacity gap : α) (hg : 0 ≤ gap) (itemsList : List (Item α))
    (hall : ∀ it ∈ itemsList, 0 < it.scaledHeight) :
    ∀ page ∈ packWithBFD itemsList capacity gap, pageOk capacity gap page := by
  intro page hpage
  unfold packWithBFD at hpage
  obtain ⟨pg, hpg, hpageeq⟩ := List.mem_map.mp hpage
  obtain ⟨_, hused, _, hdisj⟩ := packWithBFD_inv capacity gap hg itemsList hall pg hpg
  rw [← hpageeq]
  rcases hdisj with h1 | h2
  · exact Or.inl (by rw [← hused]; exact h1)
  · exact Or.inr h2

theorem bfdStep_join_perm (capacity gap : α) (pages : List (BPage α)) (it : Item α) :
    List.Perm (((bfdStep capacity gap pages it).map (fun p => p.items)).flatten)
      (it :: ((pages.map (fun p => p.items)).flatten)) := by
  unfold bfdStep
  cases hbf : bestFit capacity gap pages it with
  | none =>
    simp only [List.map_append, List.flatten_append]
    simp only [List.map_cons, List.map_nil, List.flatten_cons, List.flatten_nil]
    simpa using List.perm_append_singleton it _
  | some pr =>
    obtain ⟨r0, i0⟩ := pr
    obtain ⟨pg0, hget, _⟩ := bestFit_some_spec capacity gap pages it r0 i0 (by rw [hbf])
    dsimp only
    rw [hget]
    dsimp only
    obtain ⟨l1, l2, hsplit, _, hset⟩ := get?_some_split (⟨pg0.items ++ [it],
      pg0.used + ((if 0 < pg0.used then gap else 0) + it.scaledHeight)⟩ : BPage α)
      pages i0 pg0 hget
    rw [hset, hsplit]
    simp only [List.map_append, List.flatten_append, List.map_cons, List.flatten_cons]
    have h1 : ((l1.map (fun p => p.items)).flatten ++ (pg0.items ++ [it] ++
        (l2.map (fun p => p.items)).flatten)) =
        (((l1.map (fun p => p.items)).flatten ++ pg0.items) ++ (it ::
          (l2.map (fun p => p.items)).flatten)) := by
      simp [List.append_assoc]
    rw [h1]
    refine List.Perm.trans List.perm_middle ?_
    simp [List.append_assoc]

theorem bfd_foldl_join_perm (capacity gap : α) :
    ∀ (l : List (Item α)) (pages : List (BPage α)),
      List.Perm (((l.foldl (bfdStep capacity gap) pages).map (fun p => p.items)).flatten)
        ((pages.map (fun p => p.items)).flatten ++ l) := by
  intro l
  induction l with
  | nil => intro pages; simp
  | cons x xs ih =>
    intro pages
    have h1 := ih (bfdStep capacity gap pages x)
    have h2 : List.Perm ((((bfdStep capacity gap pages x).map (fun p => p.items)).flatten) ++ xs)
        ((x :: ((pages.map (fun p => p.items)).flatten)) ++ xs) :=
      (bfdStep_join_perm capacity gap pages x).append_right xs
    have h3 : List.Perm ((x :: ((pages.map (fun p => p.items)).flatten)) ++ xs)
        ((pages.map (fun p => p.items)).flatten ++ x :: xs) := by
      simpa using List.perm_middle.symm
    simp only [List.foldl_cons]
    exact (h1.trans h2).trans h3

theorem packWithBFD_perm (itemsList : List (Item α)) (capacity gap : α) :
    List.Perm (packWithBFD itemsList capacity gap).flatten itemsList := by
  unfold packWithBFD
  have h1 := bfd_foldl_join_perm capacity gap (sortDescBy itemsList) []
  simp only [List.map_nil, List.flatten_nil, List.nil_append] at h1
  exact h1.trans (stableSortBy_perm _ itemsList)

theorem bfdStep_length_le (capacity gap : α) (pages : List (BPage α)) (it : Item α) :
    (bfdStep capacity gap pages it).length ≤ pages.length + 1 := by
  unfold bfdStep
  cases bestFit capacity gap pages it with
  | none => simp
  | some pr =>
    obtain ⟨r0, i0⟩ := pr
    dsimp only
    cases hq : pages[i0]? with
    | none => simp
    | some pg => simp

theorem bfd_foldl_length_le (capacity gap : α) :
    ∀ (l : List (Item α)) (pages : List (BPage α)),
      (l.foldl (bfdStep capacity gap) pages).length ≤ pages.length + l.length := by
  intro l
  induction l with
  | nil => intro pages; simp
  | cons x xs ih =>
    intro pages
    calc (((x :: xs).foldl (bfdStep capacity gap) pages)).length
        = ((xs.foldl (bfdStep capacity gap) (bfdStep capacity gap pages x))).length := by
          simp [List.foldl_cons]
      _ ≤ (bfdStep capacity gap pages x).length + xs.length := ih _
      _ ≤ (pages.length + 1) + xs.length :=
          Nat.add_le_add_right (bfdStep_length_le capacity gap pages x) _
      _ = pages.length + (x :: xs).length := by simp; omega

theorem packWithBFD_length_le (itemsList : List (Item α)) (capacity gap : α) :
    (packWithBFD itemsList capacity gap).length ≤ itemsList.length := by
  unfold packWithBFD
  rw [List.length_map]
  have h1 := bfd_foldl_length_le capacity gap (sortDescBy itemsList) []
  have h2 : (sortDescBy itemsList).length = itemsList.length :=
    (stableSortBy_perm _ itemsList).length_eq
  simpa [h2] using h1

theorem dpGood_init (weights : List ℕ) : dpGood weights 0 dpInit := by
  intro w v s h
  unfold dpInit at h
  by_cases hw : w = 0
  · rw [if_pos hw] at h
    injection h with hp
    injection hp with hv hs
    subst hs
    subst hw
    exact ⟨List.chain'_nil, by simp, by simp⟩
  · rw [if_neg hw] at h
    exact absurd h (by simp)

theorem dpGood_step (weights : List ℕ) (capW : ℕ) (vi : ℤ) (i : ℕ) (st : ℕ → DPCell)
    (hst : dpGood weights i st) :
    dpGood weights (i + 1) (dpStep capW (weights.getD i 0) vi i st) := by
  intro w v s h
  unfold dpStep at h
  by_cases hcond : weights.getD i 0 ≤ w ∧ w ≤ capW
  · rw [if_pos hcond] at h
    cases hprev : st (w - weights.getD i 0) with
    | none =>
      rw [hprev] at h
      simp only [dpCombine] at h
      obtain ⟨hc0, hb0, hs0⟩ := hst w v s h
      exact ⟨hc0, fun j hj => Nat.lt_succ_of_lt (hb0 j hj), hs0⟩
    | some pv =>
      obtain ⟨v0, s0⟩ := pv
      rw [hprev] at h
      obtain ⟨hc0, hb0, hs0⟩ := hst _ v0 s0 hprev
      have hcand : (s0 ++ [i]).Chain' (· < ·) ∧ (∀ j ∈ s0 ++ [i], j < i + 1) ∧
          ((s0 ++ [i]).map (fun j => weights.getD j 0)).sum ≤ w := by
        refine ⟨?_, ?_, ?_⟩
        · rw [List.chain'_append]
          refine ⟨hc0, List.chain'_singleton i, ?_⟩
          intro a ha b hb2
          simp only [List.head?_cons, Option.mem_def, Option.some.injEq] at hb2
          subst hb2
          exact hb0 a (List.mem_of_mem_getLast? ha)
        · intro j hj
          rcases List.mem_append.mp hj with h1 | h2
          · exact Nat.lt_succ_of_lt (hb0 j h1)
          · simp at h2; omega
        · rw [List.map_append, List.sum_append]
          simp only [List.map_cons, List.map_nil, List.sum_cons, List.sum_nil]
          omega
      cases hcur : st w with
      | none =>
        rw [hcur] at h
        simp only [dpCombine] at h
        injection h with hp
        injection hp with hv hs
        subst hs
        exact hcand
      | some cpair =>
        obtain ⟨cv0, cs0⟩ := cpair
        rw [hcur] at h
        simp only [dpCombine] at h
        split_ifs at h with h1 h2
        · injection h with hp
          injection hp with hv hs
          subst hs
          exact hcand
        · injection h with hp
          injection hp with hv hs
          subst hs
          exact hcand
        · injection h with hp
          injection hp with hv hs
          subst hs
          obtain ⟨hcc, hbc, hsc⟩ := hst w cv0 cs0 hcur
          exact ⟨hcc, fun j hj => Nat.lt_succ_of_lt (hbc j hj), hsc⟩
  · rw [if_neg hcond] at h
    obtain ⟨hc0, hb0, hs0⟩ := hst w v s h
    exact ⟨hc0, fun j hj => Nat.lt_succ_of_lt (hb0 j hj), hs0⟩

theorem runDP_good (weights : List ℕ) (values : List ℤ) (capW : ℕ) :
    dpGood weights weights.length (runDP weights values capW) := by
  have hgen : ∀ m : ℕ, dpGood weights m
      ((List.range m).foldl
        (fun st i => dpStep capW (weights.getD i 0) (values.getD i 0) i st) dpInit) := by
    intro m
    induction m with
    | zero => simpa using dpGood_init weights
    | succ k ih =>
      rw [List.range_succ, List.foldl_append]
      simpa using dpGood_step weights capW (values.getD k 0) k _ ih
  exact hgen weights.length

theorem pickBest_le (capW : ℕ) (st : ℕ → DPCell) : pickBest capW st ≤ capW := by
  unfold pickBest
  have hfold : ((List.range (capW + 1)).foldl
      (fun (best : ℤ × ℕ) (w : ℕ) =>
        if best.1 < entryVal (st w) then (entryVal (st w), w) else best)
      ((-1 : ℤ), 0)).2 ≤ capW := by
    refine (foldlInd (fun best : ℤ × ℕ => best.2 ≤ capW) (List.range (capW + 1))
      ((-1 : ℤ), 0) (by simp) ?_)
    intro acc x hx hacc
    have hxlt : x ≤ capW := by
      have := List.mem_range.mp hx
      omega
    by_cases hc : acc.1 < entryVal (st x)
    · rw [if_pos hc]; exact hxlt
    · rw [if_neg hc]; exact hacc
  exact hfold

theorem tallestIdx_lt (rest : List (Item α)) (h : rest ≠ []) :
    tallestIdx rest < rest.length := by
  unfold tallestIdx
  have hn : 0 < rest.length := List.length_pos.mpr h
  refine foldlInd (fun t : ℕ => t < rest.length) (List.range rest.length) 0 hn ?_
  intro acc x hx hacc
  by_cases hc : (rest.getD acc ⟨⟨"", 0, 0⟩, 0⟩).scaledHeight <
      (rest.getD x ⟨⟨"", 0, 0⟩, 0⟩).scaledHeight
  · rw [if_pos hc]; exact List.mem_range.mp hx
  · rw [if_neg hc]; exact hacc

theorem chosenOf_spec (capacity gap : α) (rest : List (Item α)) :
    chosenOf capacity gap rest = [] ∨
      ((chosenOf capacity gap rest).Chain' (· < ·) ∧
        (∀ j ∈ chosenOf capacity gap rest, j < rest.length) ∧
        ((chosenOf capacity gap rest).map
          (fun j => (restWeights gap rest).getD j 0)).sum ≤ capWOf capacity gap) := by
  unfold chosenOf
  cases hq : dpOf capacity gap rest
      (pickBest (capWOf capacity gap) (dpOf capacity gap rest)) with
  | none => left; rfl
  | some pv =>
    obtain ⟨v, s⟩ := pv
    right
    have hgood := runDP_good (restWeights gap rest) (restValues rest) (capWOf capacity gap)
    have hq2 : runDP (restWeights gap rest) (restValues rest) (capWOf capacity gap)
        (pickBest (capWOf capacity gap) (dpOf capacity gap rest)) = some (v, s) := hq
    obtain ⟨hc, hb, hs⟩ := hgood _ v s hq2
    have hlen : (restWeights gap rest).length = rest.length := by simp [restWeights]
    refine ⟨hc, fun j hj => by rw [← hlen]; exact hb j hj, ?_⟩
    calc (s.map (fun j => (restWeights gap rest).getD j 0)).sum
      ≤ pickBest (capWOf capacity gap) (dpOf capacity gap rest) := hs
    _ ≤ capWOf capacity gap := pickBest_le _ _

theorem knapSelect_spec (capacity gap : α) (rest : List (Item α)) (hne : rest ≠ []) :
    knapSelect capacity gap rest ≠ [] ∧
    (knapSelect capacity gap rest).Chain' (· < ·) ∧
    (∀ j ∈ knapSelect capacity gap rest, j < rest.length) ∧
    (((knapSelect capacity gap rest).map
        (fun j => (restWeights gap rest).getD j 0)).sum ≤ capWOf capacity gap ∨
      knapSelect capacity gap rest = [tallestIdx rest]) := by
  unfold knapSelect
  by_cases hc : chosenOf capacity gap rest = []
  · rw [if_pos hc]
    refine ⟨by simp, List.chain'_singleton _, ?_, Or.inr rfl⟩
    intro j hj
    have : j = tallestIdx rest := by simpa using hj
    rw [this]
    exact tallestIdx_lt rest hne
  · rw [if_neg hc]
    obtain ⟨hchain, hb, hsum⟩ := (chosenOf_spec capacity gap rest).resolve_left hc
    exact ⟨hc, hchain, hb, Or.inl hsum⟩

theorem sortDescBy_perm (l : List (Item α)) : List.Perm (sortDescBy l) l :=
  stableSortBy_perm _ l

theorem getD_irrel {β : Type} :
    ∀ (l : List β) (i : ℕ) (d1 d2 : β), i < l.length → l.getD i d1 = l.getD i d2 := by
  intro l
  induction l with
  | nil => intro i d1 d2 h; simp at h
  | cons z zs ih =>
    intro i d1 d2 h
    cases i with
    | zero => simp [List.getD]
    | succ j =>
      have h1 : (z :: zs).getD (j + 1) d1 = zs.getD j d1 := by simp [List.getD]
      have h2 : (z :: zs).getD (j + 1) d2 = zs.getD j d2 := by simp [List.getD]
      rw [h1, h2]
      exact ih j d1 d2 (by simpa using h)

theorem sum_map_add_const {γ : Type} (f : γ → α) (c : α) :
    ∀ s : List γ, (s.map (fun i => f i + c)).sum = (s.map f).sum + (s.length : α) * c := by
  intro s
  induction s with
  | nil => simp
  | cons j s2 ih =>
    simp only [List.map_cons, List.sum_cons, List.length_cons, ih]
    push_cast
    ring

theorem knapStep_perm (capacity gap : α) (rest : List (Item α)) (hne : rest ≠ []) :
    List.Perm ((knapStep capacity gap rest).1 ++ (knapStep capacity gap rest).2) rest := by
  obtain ⟨_, hchain, hb, _⟩ := knapSelect_spec capacity gap rest hne
  unfold knapStep
  dsimp only
  have hpage := sortDescBy_perm
    ((knapSelect capacity gap rest).map (fun i => rest.getD i ⟨⟨"", 0, 0⟩, 0⟩))
  have hex := extractRemovePermZero (⟨⟨"", 0, 0⟩, 0⟩ : Item α) rest
    (knapSelect capacity gap rest) hchain hb
  exact (hpage.append_right _).trans hex

theorem knapStep_decrease (capacity gap : α) (rest : List (Item α)) (hne : rest ≠ []) :
    (knapStep capacity gap rest).2.length < rest.length := by
  obtain ⟨hne2, _, hb, _⟩ := knapSelect_spec capacity gap rest hne
  unfold knapStep
  dsimp only
  rw [List.length_map]
  obtain ⟨j, s2, hs⟩ : ∃ j s2, knapSelect capacity gap rest = j :: s2 := by
    cases hsel : knapSelect capacity gap rest with
    | nil => exact absurd hsel hne2
    | cons j s2 => exact ⟨j, s2, rfl⟩
  have hj : j < rest.length := hb j (by rw [hs]; simp)
  have ha : rest[j]? = some (rest.get ⟨j, hj⟩) := by
    rw [List.getElem?_eq_getElem hj]
    rfl
  have hmem : ((j : ℕ), rest.get ⟨j, hj⟩) ∈ rest.enum := by
    have := get?_mem_enumFrom rest 0 j _ ha
    simpa [List.enum] using this
  have hex : ∃ x ∈ rest.enum, ¬ ((fun p => decide (p.1 ∉ knapSelect capacity gap rest)) x = true) := by
    refine ⟨(j, rest.get ⟨j, hj⟩), hmem, ?_⟩
    simp [hs]
  calc (rest.enum.filter (fun p => decide (p.1 ∉ knapSelect capacity gap rest))).length
      < rest.enum.length := List.length_filter_lt_length_iff_exists.mpr hex
    _ = rest.length := by simp

theorem knapStep_rest_mem (capacity gap : α) (rest : List (Item α)) (x : Item α)
    (hx : x ∈ (knapStep capacity gap rest).2) : x ∈ rest := by
  unfold knapStep at hx
  dsimp only at hx
  obtain ⟨p, hp, hpe⟩ := List.mem_map.mp hx
  have hpf := List.mem_of_mem_filter hp
  have hspec := mem_enumFrom_spec rest 0 p (by simpa [List.enum] using hpf)
  rw [← hpe]
  exact List.getElem?_mem (by simpa using hspec.2)

theorem knapStep_pageOk (capacity gap : α) (hg : 0 ≤ gap) (hcg : 0 ≤ capacity + gap)
    (rest : List (Item α)) (hne : rest ≠ [])
    (hrest : ∀ it ∈ rest, it.scaledHeight ≤ capacity) :
    usedHeight gap (knapStep capacity gap rest).1 ≤ capacity := by
  obtain ⟨hne2, hchain, hb, hdisj⟩ := knapSelect_spec capacity gap rest hne
  have hperm : List.Perm (knapStep capacity gap rest).1
      ((knapSelect capacity gap rest).map (fun i => rest.getD i ⟨⟨"", 0, 0⟩, 0⟩)) := by
    unfold knapStep
    dsimp only
    exact sortDescBy_perm _
  rw [usedHeight_perm gap hperm]
  rcases hdisj with hsum | hfall
  · -- the DP-selected page: its rounded weights already bound the used height
    obtain ⟨j, s2, hs⟩ : ∃ j s2, knapSelect capacity gap rest = j :: s2 := by
      cases hsel : knapSelect capacity gap rest with
      | nil => exact absurd hsel hne2
      | cons j s2 => exact ⟨j, s2, rfl⟩
    have helem : ∀ i ∈ knapSelect capacity gap rest,
        (rest.getD i ⟨⟨"", 0, 0⟩, 0⟩).scaledHeight + gap ≤
          (((restWeights gap rest).getD i 0 : ℕ) : α) := by
      intro i hi
      have hilt : i < rest.length := hb i hi
      have hwlen : i < (restWeights gap rest).length := by simpa [restWeights] using hilt
      have hirr : (restWeights gap rest).getD i 0 =
          (restWeights gap rest).getD i
            ((fun it : Item α => (⌈it.scaledHeight + gap⌉).toNat) ⟨⟨"", 0, 0⟩, 0⟩) :=
        getD_irrel _ i _ _ hwlen
      have hmap : (restWeights gap rest).getD i
          ((fun it : Item α => (⌈it.scaledHeight + gap⌉).toNat) ⟨⟨"", 0, 0⟩, 0⟩) =
          (⌈(rest.getD i ⟨⟨"", 0, 0⟩, 0⟩).scaledHeight + gap⌉).toNat := by
        unfold restWeights
        exact getD_map _ _ rest i hilt
      rw [hirr, hmap]
      calc (rest.getD i ⟨⟨"", 0, 0⟩, 0⟩).scaledHeight + gap
          ≤ ((⌈(rest.getD i ⟨⟨"", 0, 0⟩, 0⟩).scaledHeight + gap⌉ : ℤ) : α) := Int.le_ceil _
        _ ≤ (((⌈(rest.getD i ⟨⟨"", 0, 0⟩, 0⟩).scaledHeight + gap⌉).toNat : ℕ) : α) := by
            exact_mod_cast Int.self_le_toNat _
    have hsums : ((knapSelect capacity gap rest).map
        (fun i => (rest.getD i ⟨⟨"", 0, 0⟩, 0⟩).scaledHeight + gap)).sum ≤
        ((knapSelect capacity gap rest).map
          (fun i => (((restWeights gap rest).getD i 0 : ℕ) : α))).sum := by
      apply List.sum_le_sum
      intro i hi
      exact helem i hi
    have hcast : ((knapSelect capacity gap rest).map
        (fun i => (((restWeights gap rest).getD i 0 : ℕ) : α))).sum =
        ((((knapSelect capacity gap rest).map
          (fun i => (restWeights gap rest).getD i 0)).sum : ℕ) : α) := by
      rw [Nat.cast_list_sum, List.map_map]
      rfl
    have hcapw : (((capWOf capacity gap : ℕ)) : α) ≤ capacity + gap := by
      unfold capWOf
      have h0 : (0 : ℤ) ≤ ⌊capacity + gap⌋ := Int.floor_nonneg.mpr hcg
      have h1 : (((⌊capacity + gap⌋).toNat : ℕ) : ℤ) = ⌊capacity + gap⌋ :=
        Int.toNat_of_nonneg h0
      calc (((⌊capacity + gap⌋).toNat : ℕ) : α) = ((⌊capacity + gap⌋ : ℤ) : α) := by
            exact_mod_cast congrArg (fun z : ℤ => (z : α)) h1
        _ ≤ capacity + gap := Int.floor_le _
    have htot : ((knapSelect capacity gap rest).map
        (fun i => (rest.getD i ⟨⟨"", 0, 0⟩, 0⟩).scaledHeight + gap)).sum ≤ capacity + gap := by
      refine le_trans hsums ?_
      rw [hcast]
      refine le_trans ?_ hcapw
      exact_mod_cast hsum
    rw [sum_map_add_const] at htot
    rw [hs] at htot
    have husd : usedHeight gap ((knapSelect capacity gap rest).map
        (fun i => rest.getD i ⟨⟨"", 0, 0⟩, 0⟩)) =
        ((knapSelect capacity gap rest).map
          (fun i => (rest.getD i ⟨⟨"", 0, 0⟩, 0⟩).scaledHeight)).sum +
          (s2.length : α) * gap := by
      rw [hs]
      simp only [List.map_cons]
      rw [usedHeight_cons_sum]
      simp [List.map_map]
      rfl
    rw [husd, hs]
    simp only [List.map_cons, List.sum_cons, List.length_cons] at htot ⊢
    push_cast at htot ⊢
    linarith
  · -- the fallback page: the single tallest remaining item
    rw [hfall]
    simp only [List.map_cons, List.map_nil]
    have husd : usedHeight gap [rest.getD (tallestIdx rest) ⟨⟨"", 0, 0⟩, 0⟩] =
        (rest.getD (tallestIdx rest) ⟨⟨"", 0, 0⟩, 0⟩).scaledHeight := by
      simp [usedHeight]
    rw [husd]
    exact hrest _ (getD_mem _ rest _ (tallestIdx_lt rest hne))

theorem knapLoop_pageOk (capacity gap : α) (hg : 0 ≤ gap) (hcg : 0 ≤ capacity + gap) :
    ∀ (fuel : ℕ) (rest : List (Item α)), (∀ it ∈ rest, it.scaledHeight ≤ capacity) →
      ∀ page ∈ knapLoop capacity gap fuel rest, usedHeight gap page ≤ capacity := by
  intro fuel
  induction fuel with
  | zero =>
    intro rest _ page hp
    cases rest with
    | nil => simp [knapLoop] at hp
    | cons x r => simp [knapLoop] at hp
  | succ f ih =>
    intro rest hrest page hp
    cases rest with
    | nil => simp [knapLoop] at hp
    | cons x r =>
      simp only [knapLoop] at hp
      rcases List.mem_cons.mp hp with h1 | h2
      · rw [h1]
        exact knapStep_pageOk capacity gap hg hcg (x :: r) (by simp) hrest
      · exact ih ((knapStep capacity gap (x :: r)).2)
          (fun it hit => hrest it (knapStep_rest_mem capacity gap (x :: r) it hit)) page h2

theorem knapLoop_join_perm (capacity gap : α) :
    ∀ (fuel : ℕ) (rest : List (Item α)), rest.length ≤ fuel →
      List.Perm (knapLoop capacity gap fuel rest).flatten rest := by
  intro fuel
  induction fuel with
  | zero =>
    intro rest hlen
    have h0 : rest = [] := List.length_eq_zero.mp (Nat.le_zero.mp hlen)
    subst h0
    simp [knapLoop]
  | succ f ih =>
    intro rest hlen
    cases rest with
    | nil => simp [knapLoop]
    | cons x r =>
      simp only [knapLoop, List.flatten_cons]
      have hdec := knapStep_decrease capacity gap (x :: r) (by simp)
      have hlen2 : (knapStep capacity gap (x :: r)).2.length ≤ f := by
        simp only [List.length_cons] at hdec hlen
        omega
      have hperm := knapStep_perm capacity gap (x :: r) (by simp)
      exact ((ih _ hlen2).append_left _).trans hperm

theorem flatten_map_singleton {β : Type} :
    ∀ l : List β, (l.map (fun x => [x])).flatten = l := by
  intro l
  induction l with
  | nil => rfl
  | cons x xs ih => simp [ih]

theorem packWithKnapsack_pageOk (itemsList : List (Item α)) (capacity gap : α)
    (hg : 0 ≤ gap) (hcg : 0 ≤ capacity + gap) :
    ∀ page ∈ packWithKnapsack itemsList capacity gap, pageOk capacity gap page := by
  intro page hp
  simp only [packWithKnapsack] at hp
  rcases List.mem_append.mp hp with h1 | h2
  · obtain ⟨it, hit, hpe⟩ := List.mem_map.mp h1
    have hover : capacity < it.scaledHeight := by
      have := List.of_mem_filter hit
      simpa using this
    exact Or.inr ⟨it, hpe.symm, hover⟩
  · left
    refine knapLoop_pageOk capacity gap hg hcg _ _ ?_ page h2
    intro it hit
    have := List.of_mem_filter hit
    simpa using this

theorem packWithKnapsack_perm (itemsList : List (Item α)) (capacity gap : α) :
    List.Perm (packWithKnapsack itemsList capacity gap).flatten itemsList := by
  unfold packWithKnapsack
  dsimp only
  rw [List.flatten_append, flatten_map_singleton]
  have hloop := knapLoop_join_perm capacity gap
    (itemsList.filter (fun it => decide (it.scaledHeight ≤ capacity))).length
    (itemsList.filter (fun it => decide (it.scaledHeight ≤ capacity))) (le_refl _)
  have happ := hloop.append_left
    (itemsList.filter (fun it => decide (capacity < it.scaledHeight)))
  refine happ.trans ?_
  have hcongr : itemsList.filter (fun it => decide (it.scaledHeight ≤ capacity)) =
      itemsList.filter (fun it => !(decide (capacity < it.scaledHeight))) := by
    apply List.filter_congr
    intro x _
    by_cases hx : x.scaledHeight ≤ capacity
    · simp [hx, not_lt.mpr hx]
    · simp [hx, lt_of_not_le hx]
  rw [hcongr]
  exact List.filter_append_perm _ itemsList

/-- The JS best-weight scan returns the earliest index attaining the
maximal dpVal: characterisation used to evaluate pickBest on concrete
states without unfolding the 741-step fold. -/
theorem pickBest_eq (capW : ℕ) (st : ℕ → DPCell) (u : ℕ) (hu : u ≤ capW)
    (hgt : -1 < entryVal (st u))
    (hmax : ∀ w ∈ List.range (capW + 1), entryVal (st w) ≤ entryVal (st u))
    (hlt : ∀ w ∈ List.range u, entryVal (st w) < entryVal (st u)) :
    pickBest capW st = u := by
  unfold pickBest
  have hdecomp : capW + 1 = u + (capW - u + 1) := by omega
  rw [hdecomp, List.range_add, List.foldl_append]
  have h1 : ((List.range u).foldl
      (fun (best : ℤ × ℕ) (w : ℕ) =>
        if best.1 < entryVal (st w) then (entryVal (st w), w) else best)
      ((-1 : ℤ), 0)).1 < entryVal (st u) := by
    refine foldlInd (fun best : ℤ × ℕ => best.1 < entryVal (st u)) (List.range u)
      ((-1 : ℤ), 0) hgt ?_
    intro acc x hx _
    by_cases hc : acc.1 < entryVal (st x)
    · rw [if_pos hc]
      exact hlt x hx
    · rw [if_neg hc]
      assumption
  rw [List.range_succ_eq_map, List.map_cons, List.foldl_cons]
  simp only [Nat.add_zero]
  rw [if_pos h1]
  have h2 : (((List.range (capW - u)).map Nat.succ).map (fun x => u + x)).foldl
      (fun (best : ℤ × ℕ) (w : ℕ) =>
        if best.1 < entryVal (st w) then (entryVal (st w), w) else best)
      (entryVal (st u), u) = (entryVal (st u), u) := by
    refine foldlInd (fun best : ℤ × ℕ => best = (entryVal (st u), u)) _ _ rfl ?_
    intro acc x hx hacc
    obtain ⟨y, hy, hyx⟩ := List.mem_map.mp hx
    obtain ⟨z, hz, hzy⟩ := List.mem_map.mp hy
    have hzlt : z < capW - u := List.mem_range.mp hz
    have hxcap : x ∈ List.range (capW + 1) := by
      rw [List.mem_range]
      omega
    have hle := hmax x hxcap
    subst hacc
    have hnot : ¬ ((entryVal (st u), u).1 < entryVal (st x)) := not_lt.mpr hle
    rw [if_neg hnot]
  rw [h2]

theorem leKeys_total : ∀ a b : List ℕ, leKeys a b = true ∨ leKeys b a = true := by
  intro a
  induction a with
  | nil => intro b; left; rfl
  | cons x xs ih =>
    intro b
    cases b with
    | nil => right; rfl
    | cons y ys =>
      by_cases h1 : x < y
      · left
        simp [leKeys, h1]
      · by_cases h2 : y < x
        · right
          simp [leKeys, h2]
        · have hxy : x = y := by omega
          subst hxy
          rcases ih ys with h | h
          · left; simp [leKeys, h]
          · right; simp [leKeys, h]

theorem leKeys_trans : ∀ a b c : List ℕ, leKeys a b = true → leKeys b c = true →
    leKeys a c = true := by
  intro a
  induction a with
  | nil => intro b c _ _; rfl
  | cons x xs ih =>
    intro b c hab hbc
    cases b with
    | nil => simp [leKeys] at hab
    | cons y ys =>
      cases c with
      | nil => simp [leKeys] at hbc
      | cons z zs =>
        simp only [leKeys] at hab hbc ⊢
        by_cases h1 : x < y
        · by_cases h2 : y < z
          · rw [if_pos (show x < z by omega)]
          · by_cases h3 : z < y
            · rw [if_neg h2, if_pos h3] at hbc
              exact absurd hbc (by simp)
            · have hyz : y = z := by omega
              subst hyz
              rw [if_pos h1]
        · by_cases h4 : y < x
          · rw [if_neg h1, if_pos h4] at hab
            exact absurd hab (by simp)
          · have hxy : x = y := by omega
            subst hxy
            rw [if_neg h1, if_neg h4] at hab
            by_cases h2 : x < z
            · rw [if_pos h2]
            · by_cases h3 : z < x
              · rw [if_neg h2, if_pos h3] at hbc
                exact absurd hbc (by simp)
              · have hxz : x = z := by omega
                subst hxz
                rw [if_neg h2, if_neg h3] at hbc ⊢
                exact ih ys zs hab hbc

theorem flatMap_entries_titles (instrFile : String) :
    ∀ (pages : List (List (Image α))) (f g : ℕ → ℕ) (sec : String) (k : ℕ),
      (((pages.enumFrom k).flatMap
        (fun p => p.2.map (mkEntry instrFile (f p.1) (g p.1) sec))).map
          (fun e => e.title)) =
        pages.flatten.map (fun img => deriveTitle instrFile img.filename) := by
  intro pages
  induction pages with
  | nil => intro f g sec k; rfl
  | cons pg pgs ih =>
    intro f g sec k
    have henum : (pg :: pgs).enumFrom k = (k, pg) :: pgs.enumFrom (k + 1) := rfl
    rw [henum, List.flatMap_cons, List.map_append, List.flatten_cons, List.map_append]
    rw [ih f g sec (k + 1)]
    congr 1
    rw [List.map_map]
    rfl

theorem buildIndexEntries_titles (instrFile : String)
    (oP aP : List (List (Image α))) (hasApp : Bool) :
    (buildIndexEntries instrFile oP aP hasApp).map (fun e => e.title) =
      (oP.flatten ++ (if hasApp then aP.flatten else [])).map
        (fun img => deriveTitle instrFile img.filename) := by
  unfold buildIndexEntries
  rw [List.map_append, List.map_append]
  congr 1
  · have h0 : oP.enum = oP.enumFrom 0 := by simp [List.enum]
    rw [h0]
    exact flatMap_entries_titles instrFile oP (fun p => p + 1) (fun p => p) "original" 0
  · cases hasApp with
    | true =>
      simp only [if_true]
      have h0 : aP.enum = aP.enumFrom 0 := by simp [List.enum]
      rw [h0]
      exact flatMap_entries_titles instrFile aP (fun p => oP.length + p + 1)
        (fun p => oP.length + p) "appendix" 0
    | false => simp

theorem partition_append_perm (catalog : List (Image α)) (baseline : Option (List String)) :
    List.Perm ((partition catalog baseline).1 ++ (partition catalog baseline).2) catalog := by
  cases baseline with
  | none => simp [partition]
  | some lines =>
    unfold partition
    dsimp only
    have hcongr : catalog.filter (fun img => decide (img.filename ∉ baselineNames lines)) =
        catalog.filter (fun img => !(decide (img.filename ∈ baselineNames lines))) := by
      apply List.filter_congr
      intro x _
      rw [decide_not]
    rw [hcongr]
    exact List.filter_append_perm _ catalog

theorem groupPages_cases (images : List (Image α)) (contentHeight scale gap : α) :
    groupPages images contentHeight scale gap =
        packWithKnapsack (mkItems images scale) contentHeight gap ∨
      groupPages images contentHeight scale gap =
        packWithBFD (mkItems images scale) contentHeight gap := by
  unfold groupPages
  dsimp only
  split_ifs
  · left; rfl
  · right; rfl
  · left; rfl
  · right; rfl

theorem groupPages_pageOk (images : List (Image α)) (contentHeight scale gap : α)
    (hh : ∀ img ∈ images, 0 < img.height) (hs : 0 < scale) (hg : 0 ≤ gap)
    (hc : 0 ≤ contentHeight) :
    ∀ page ∈ groupPages images contentHeight scale gap, pageOk contentHeight gap page := by
  have hall : ∀ it ∈ mkItems images scale, 0 < it.scaledHeight := by
    intro it hit
    obtain ⟨img, himg, hie⟩ := List.mem_map.mp hit
    rw [← hie]
    exact mul_pos (hh img himg) hs
  rcases groupPages_cases images contentHeight scale gap with he | he <;> rw [he]
  · exact packWithKnapsack_pageOk (mkItems images scale) contentHeight gap hg
      (by linarith)
  · exact packWithBFD_pageOk contentHeight gap hg (mkItems images scale) hall

theorem groupPages_perm (images : List (Image α)) (contentHeight scale gap : α) :
    List.Perm (groupPages images contentHeight scale gap).flatten (mkItems images scale) := by
  rcases groupPages_cases images contentHeight scale gap with he | he <;> rw [he]
  · exact packWithKnapsack_perm (mkItems images scale) contentHeight gap
  · exact packWithBFD_perm (mkItems images scale) contentHeight gap

theorem groupImagesIntoPages_perm (images : List (Image α)) (contentHeight scale gap : α) :
    List.Perm (groupImagesIntoPages images contentHeight scale gap).flatten images := by
  unfold groupImagesIntoPages
  have hmf : ((groupPages images contentHeight scale gap).map
      (fun page => page.map (fun it : Item α => it.img))).flatten =
      (groupPages images contentHeight scale gap).flatten.map (fun it : Item α => it.img) :=
    (List.map_flatten _ _).symm
  rw [hmf]
  have h1 := (groupPages_perm images contentHeight scale gap).map (fun it : Item α => it.img)
  refine h1.trans ?_
  have h2 : (mkItems images scale).map (fun it : Item α => it.img) = images := by
    unfold mkItems
    rw [List.map_map]
    exact List.map_id images
  rw [h2]

theorem foldl_max_prop :
    ∀ (rest : List (Image ℚ)) (m : ℚ),
      m ≤ rest.foldl (fun m i => max m i.width) m ∧
      ∀ i ∈ rest, i.width ≤ rest.foldl (fun m i => max m i.width) m := by
  intro rest
  induction rest with
  | nil => intro m; exact ⟨le_refl m, by simp⟩
  | cons x xs ih =>
    intro m
    have h1 := ih (max m x.width)
    have hfold : (x :: xs).foldl (fun m i => max m i.width) m =
        xs.foldl (fun m i => max m i.width) (max m x.width) := rfl
    constructor
    · rw [hfold]
      calc m ≤ max m x.width := le_max_left _ _
        _ ≤ _ := h1.1
    · intro i hi
      rw [hfold]
      rcases List.mem_cons.mp hi with he | hm
      · subst he
        calc i.width ≤ max m i.width := le_max_right _ _
          _ ≤ _ := h1.1
      · exact h1.2 i hm

theorem titleLe_total (a b : String) : titleLe a b = true ∨ titleLe b a = true := by
  unfold titleLe
  exact leKeys_total _ _

theorem titleLe_trans (a b c : String) (h1 : titleLe a b = true) (h2 : titleLe b c = true) :
    titleLe a c = true := by
  unfold titleLe at h1 h2 ⊢
  exact leKeys_trans _ _ _ h1 h2

theorem knapLoop_cons (capacity gap : α) (fuel : ℕ) (it : Item α) (rest : List (Item α)) :
    knapLoop capacity gap (fuel + 1) (it :: rest) =
      (knapStep capacity gap (it :: rest)).1 ::
        knapLoop capacity gap fuel (knapStep capacity gap (it :: rest)).2 := rfl

theorem knapLoop_nil (capacity gap : α) (fuel : ℕ) :
    knapLoop capacity gap fuel [] = [] := by
  cases fuel <;> rfl

end Lemmas

section Claims

/-- C3 counterexample: with a baseline that is present but empty, the
partition puts nothing into the original section and the whole catalog
into the appendix, contradicting the claim that an absent OR EMPTY
baseline yields original = catalog and appendix = []. -/
theorem C3_counterexample :
    partition [imgA] (some []) = ([], [imgA]) ∧
    partition [imgA] (some []) ≠ ([imgA], []) := by
  constructor
  · decide
  · decide

/-- C3 (amended): when the baseline is absent, partition returns
original = the full catalog and appendix = []; when the baseline is
present but empty, it returns original = [] and appendix = the full
catalog (every item is treated as new). -/
theorem C3_partition_baseline {γ : Type} [LinearOrderedCommRing γ] [FloorRing γ] (catalog : List (Image γ)) :
    partition catalog none = (catalog, []) ∧
    partition catalog (some []) = ([], catalog) := by
  constructor
  · rfl
  · unfold partition
    dsimp only
    have h1 : catalog.filter (fun img => decide (img.filename ∈ baselineNames [])) = [] := by
      have : ∀ img : Image γ, decide (img.filename ∈ baselineNames []) = false := by
        intro img
        simp [baselineNames]
      simp [this]
    have h2 : catalog.filter (fun img => decide (img.filename ∉ baselineNames [])) =
        catalog := by
      have : ∀ img ∈ catalog, decide (img.filename ∉ baselineNames []) = true := by
        intro img _
        simp [baselineNames]
      exact List.filter_eq_self.mpr this
    rw [h1, h2]

/-- C4: with a present baseline, partition is a strict bipartition: the
original section is exactly the catalog items whose filename appears in
the baseline set, the appendix exactly the remaining ones, in catalog
order; their concatenation is a permutation of the catalog and no item
lies in both.  The spec's worked example (baseline a.png, b.png over the
catalog a.png, b.png, c.png) is included. -/
theorem C4_partition_bipartition :
    (∀ {γ : Type} [LinearOrderedCommRing γ] [FloorRing γ] (catalog : List (Image γ)) (lines : List String),
      (partition catalog (some lines)).1 =
        catalog.filter (fun img => decide (img.filename ∈ baselineNames lines)) ∧
      (partition catalog (some lines)).2 =
        catalog.filter (fun img => decide (img.filename ∉ baselineNames lines)) ∧
      List.Perm ((partition catalog (some lines)).1 ++ (partition catalog (some lines)).2)
        catalog ∧
      ∀ x ∈ (partition catalog (some lines)).1, x ∉ (partition catalog (some lines)).2) ∧
    partition [imgA, imgB, imgC] (some ["a.png", "b.png"]) = ([imgA, imgB], [imgC]) := by
  constructor
  · intro γ inst inst2 catalog lines
    refine ⟨rfl, rfl, partition_append_perm catalog (some lines), ?_⟩
    intro x hx hx2
    have hx3 : x ∈ catalog.filter (fun img => decide (img.filename ∈ baselineNames lines)) :=
      hx
    have hx4 : x ∈ catalog.filter (fun img => decide (img.filename ∉ baselineNames lines)) :=
      hx2
    have h1 := List.of_mem_filter hx3
    have h2 := List.of_mem_filter hx4
    simp only [decide_eq_true_eq] at h1 h2
    exact h2 h1
  · decide

/-- C5: the scale resolver yields contentWidth divided by the maximal
catalog pixel width (maxWidthPx is an upper bound of all widths), and on
an empty catalog it yields no scale at all (the booklet run aborts). -/
theorem C5_resolveScale (contentWidth : ℚ) (items : List (Image ℚ)) (hne : items ≠ []) :
    resolveScale contentWidth items = some (contentWidth / maxWidthPx items) ∧
    (∀ img ∈ items, img.width ≤ maxWidthPx items) ∧
    resolveScale contentWidth [] = none := by
  refine ⟨?_, ?_, rfl⟩
  · cases items with
    | nil => exact absurd rfl hne
    | cons x xs => rfl
  · intro img himg
    cases items with
    | nil => simp at himg
    | cons x xs =>
      have hm : maxWidthPx (x :: xs) = xs.foldl (fun m i => max m i.width) x.width := rfl
      rw [hm]
      rcases List.mem_cons.mp himg with he | hmem
      · subst he
        exact (foldl_max_prop xs img.width).1
      · exact (foldl_max_prop xs x.width).2 img hmem

/-- C5 witness: the resolver evaluated on a concrete two-image catalog. -/
theorem C5_witness :
    resolveScale 515 [imgQ, imgQ2] = some (515 / maxWidthPx [imgQ, imgQ2]) ∧
    resolveScale 515 ([] : List (Image ℚ)) = none :=
  ⟨(C5_resolveScale 515 [imgQ, imgQ2] (by decide)).1,
   (C5_resolveScale 515 [imgQ, imgQ2] (by decide)).2.2⟩

/-- C8 counterexample: with the font unavailable the engine produces no
index at all (the whole index block is skipped), while with a font it
produces one; this contradicts the claim that the full index entry list
is still produced without a font. -/
theorem C8_counterexample :
    bookletIndexOpt false "Flute" [imgA] none 700 1 40 = none ∧
    bookletIndexOpt true "Flute" [imgA] none 700 1 40 ≠ none := by
  constructor
  · rfl
  · intro h
    exact absurd h (by
      unfold bookletIndexOpt
      simp)

/-- C8 (amended): when the font is unavailable the page and section
groupings are unchanged (they never depend on the font), but the index is
skipped entirely rather than emitted with degraded formatting. -/
theorem C8_font_skips_index {γ : Type} [LinearOrderedCommRing γ] [FloorRing γ]
    (hasFont : Bool) (instrFile : String) (catalog : List (Image γ))
    (baseline : Option (List String)) (contentHeight scale gap : γ) :
    (assembleBooklet hasFont instrFile catalog baseline contentHeight scale gap).2 =
      (assembleBooklet true instrFile catalog baseline contentHeight scale gap).2 ∧
    (assembleBooklet false instrFile catalog baseline contentHeight scale gap).1 = none := by
  exact ⟨rfl, rfl⟩

/-- C10: the iterative knapsack loop makes progress on every nonempty
remaining list: the selected index set is never empty (when the DP selects
nothing, the fallback picks the tallest remaining item), and one step
strictly shrinks the remaining list, so the loop terminates on every
finite input. -/
theorem C10_knapsack_progress (capacity gap : α) (rest : List (Item α)) (hne : rest ≠ []) :
    knapSelect capacity gap rest ≠ [] ∧
    (chosenOf capacity gap rest = [] →
      knapSelect capacity gap rest = [tallestIdx rest]) ∧
    (knapStep capacity gap rest).2.length < rest.length := by
  refine ⟨(knapSelect_spec capacity gap rest hne).1, ?_,
    knapStep_decrease capacity gap rest hne⟩
  intro hc
  unfold knapSelect
  rw [if_pos hc]

/-- C10 witness: one knapsack step on a concrete one-item list removes the
item. -/
theorem C10_witness :
    (mkItems [imgA] (1 : ℤ) ≠ []) ∧
    (knapStep (700 : ℤ) 40 (mkItems [imgA] 1)).2.length < (mkItems [imgA] 1).length :=
  ⟨by decide, (C10_knapsack_progress (700 : ℤ) 40 (mkItems [imgA] 1) (by decide)).2.2⟩

/-- C1: for catalogs of positive pixel heights packed at a positive scale
with a nonnegative gap and content height, every page produced by the BFD
heuristic, by the per-page knapsack heuristic, and hence by the selected
packing, has usedHeight at most contentHeight — except a page holding
exactly one item whose scaled height alone exceeds contentHeight, which
sits alone on its dedicated page. -/
theorem C1_pages_fit (images : List (Image α)) (contentHeight scale gap : α)
    (hh : ∀ img ∈ images, 0 < img.height) (hs : 0 < scale) (hg : 0 ≤ gap)
    (hc : 0 ≤ contentHeight) :
    (∀ page ∈ packWithBFD (mkItems images scale) contentHeight gap,
      pageOk contentHeight gap page) ∧
    (∀ page ∈ packWithKnapsack (mkItems images scale) contentHeight gap,
      pageOk contentHeight gap page) ∧
    (∀ page ∈ groupPages images contentHeight scale gap,
      pageOk contentHeight gap page) := by
  have hall : ∀ it ∈ mkItems images scale, 0 < it.scaledHeight := by
    intro it hit
    obtain ⟨img, himg, hie⟩ := List.mem_map.mp hit
    rw [← hie]
    exact mul_pos (hh img himg) hs
  exact ⟨packWithBFD_pageOk contentHeight gap hg (mkItems images scale) hall,
    packWithKnapsack_pageOk (mkItems images scale) contentHeight gap hg (by linarith),
    groupPages_pageOk images contentHeight scale gap hh hs hg hc⟩

/-- C1 witness: the packing invariant at the spec's concrete example. -/
theorem C1_witness :
    ((0 : ℤ) < 1 ∧ (0 : ℤ) ≤ 40 ∧ (0 : ℤ) ≤ 700) ∧
    (∀ page ∈ groupPages [imgA, imgB, imgC, imgD] (700 : ℤ) 1 40, pageOk 700 40 page) :=
  ⟨by decide,
   (C1_pages_fit [imgA, imgB, imgC, imgD] 700 1 40 (by decide) (by decide) (by decide)
     (by decide)).2.2⟩

/-- C2: the packer scores both heuristics by page count and total slack,
preferring strictly fewer pages, and on equal counts the knapsack result
exactly when its slack is at most the BFD slack; the returned page count
is at most the BFD page count and at most the number of input images. -/
theorem C2_selection_rule (images : List (Image α)) (contentHeight scale gap : α) :
    (groupPages images contentHeight scale gap =
        packWithKnapsack (mkItems images scale) contentHeight gap ∨
      groupPages images contentHeight scale gap =
        packWithBFD (mkItems images scale) contentHeight gap) ∧
    ((packWithKnapsack (mkItems images scale) contentHeight gap).length <
        (packWithBFD (mkItems images scale) contentHeight gap).length →
      groupPages images contentHeight scale gap =
        packWithKnapsack (mkItems images scale) contentHeight gap) ∧
    ((packWithBFD (mkItems images scale) contentHeight gap).length <
        (packWithKnapsack (mkItems images scale) contentHeight gap).length →
      groupPages images contentHeight scale gap =
        packWithBFD (mkItems images scale) contentHeight gap) ∧
    ((packWithKnapsack (mkItems images scale) contentHeight gap).length =
        (packWithBFD (mkItems images scale) contentHeight gap).length →
      ((totalSlack contentHeight gap
            (packWithKnapsack (mkItems images scale) contentHeight gap) ≤
          totalSlack contentHeight gap
            (packWithBFD (mkItems images scale) contentHeight gap) →
        groupPages images contentHeight scale gap =
          packWithKnapsack (mkItems images scale) contentHeight gap) ∧
       (totalSlack contentHeight gap
            (packWithBFD (mkItems images scale) contentHeight gap) <
          totalSlack contentHeight gap
            (packWithKnapsack (mkItems images scale) contentHeight gap) →
        groupPages images contentHeight scale gap =
          packWithBFD (mkItems images scale) contentHeight gap))) ∧
    (groupImagesIntoPages images contentHeight scale gap).length ≤
      (packWithBFD (mkItems images scale) contentHeight gap).length ∧
    (groupImagesIntoPages images contentHeight scale gap).length ≤ images.length := by
  have hlen7 : (groupImagesIntoPages images contentHeight scale gap).length =
      (groupPages images contentHeight scale gap).length := by
    unfold groupImagesIntoPages
    exact List.length_map _ _
  have hmk : (mkItems images scale).length = images.length := by
    unfold mkItems
    exact List.length_map _ _
  have hble := packWithBFD_length_le (mkItems images scale) contentHeight gap
  have hsel : (groupPages images contentHeight scale gap =
        packWithKnapsack (mkItems images scale) contentHeight gap ∨
      groupPages images contentHeight scale gap =
        packWithBFD (mkItems images scale) contentHeight gap) ∧
      ((packWithKnapsack (mkItems images scale) contentHeight gap).length <
          (packWithBFD (mkItems images scale) contentHeight gap).length →
        groupPages images contentHeight scale gap =
          packWithKnapsack (mkItems images scale) contentHeight gap) ∧
      ((packWithBFD (mkItems images scale) contentHeight gap).length <
          (packWithKnapsack (mkItems images scale) contentHeight gap).length →
        groupPages images contentHeight scale gap =
          packWithBFD (mkItems images scale) contentHeight gap) ∧
      ((packWithKnapsack (mkItems images scale) contentHeight gap).length =
          (packWithBFD (mkItems images scale) contentHeight gap).length →
        ((totalSlack contentHeight gap
              (packWithKnapsack (mkItems images scale) contentHeight gap) ≤
            totalSlack contentHeight gap
              (packWithBFD (mkItems images scale) contentHeight gap) →
          groupPages images contentHeight scale gap =
            packWithKnapsack (mkItems images scale) contentHeight gap) ∧
         (totalSlack contentHeight gap
              (packWithBFD (mkItems images scale) contentHeight gap) <
            totalSlack contentHeight gap
              (packWithKnapsack (mkItems images scale) contentHeight gap) →
          groupPages images contentHeight scale gap =
            packWithBFD (mkItems images scale) contentHeight gap))) := by
    unfold groupPages
    dsimp only
    split_ifs with h1 h2 h3
    · exact ⟨Or.inl rfl, fun _ => rfl, fun h => absurd h (by omega),
        fun h => absurd h (by omega)⟩
    · exact ⟨Or.inr rfl, fun h => absurd h h1, fun _ => rfl,
        fun h => absurd h (by omega)⟩
    · exact ⟨Or.inl rfl, fun _ => rfl, fun h => absurd h h2,
        fun _ => ⟨fun _ => rfl, fun hs2 => absurd hs2 (not_lt.mpr h3)⟩⟩
    · exact ⟨Or.inr rfl, fun h => absurd h h1, fun _ => rfl,
        fun _ => ⟨fun hs2 => absurd hs2 h3, fun _ => rfl⟩⟩
  obtain ⟨hdisj, hc2, hc3, hc4⟩ := hsel
  have h5 : (groupImagesIntoPages images contentHeight scale gap).length ≤
      (packWithBFD (mkItems images scale) contentHeight gap).length := by
    by_cases hlt : (packWithBFD (mkItems images scale) contentHeight gap).length <
        (packWithKnapsack (mkItems images scale) contentHeight gap).length
    · rw [hlen7, hc3 hlt]
    · rcases hdisj with he | he <;> rw [hlen7, he]
      exact not_lt.mp hlt
  have h6 : (groupImagesIntoPages images contentHeight scale gap).length ≤
      images.length := by
    rw [← hmk]
    exact le_trans h5 hble
  exact ⟨hdisj, hc2, hc3, hc4, h5, h6⟩

/-- C7: index entries carry targetPageNumber = sectionOffset +
pageIndexWithinSet + 1: original-section entries use offset 0, appendix
entries the original page count, so numbering is continuous across the
two sections; and every entry of the built list is of exactly one of
those two forms. -/
theorem C7_index_numbers {γ : Type} [LinearOrderedCommRing γ] [FloorRing γ]
    (instrFile : String) (oP aP : List (List (Image γ))) :
    (∀ (p : ℕ) (items : List (Image γ)) (img : Image γ),
      oP[p]? = some items → img ∈ items →
      mkEntry instrFile (p + 1) p "original" img ∈
        buildIndexEntries instrFile oP aP true) ∧
    (∀ (p : ℕ) (items : List (Image γ)) (img : Image γ),
      aP[p]? = some items → img ∈ items →
      mkEntry instrFile (oP.length + p + 1) (oP.length + p) "appendix" img ∈
        buildIndexEntries instrFile oP aP true) ∧
    (∀ e ∈ buildIndexEntries instrFile oP aP true,
      (e.sec = "original" ∧ e.page = e.pageIndex + 1 ∧ e.pageIndex < oP.length) ∨
      (e.sec = "appendix" ∧ e.page = e.pageIndex + 1 ∧ oP.length ≤ e.pageIndex ∧
        e.pageIndex < oP.length + aP.length)) := by
  refine ⟨?_, ?_, ?_⟩
  · intro p items img hp himg
    unfold buildIndexEntries
    apply List.mem_append_left
    rw [List.mem_flatMap]
    refine ⟨(p, items), ?_, ?_⟩
    · simpa [List.enum] using get?_mem_enumFrom oP 0 p items hp
    · exact List.mem_map_of_mem _ himg
  · intro p items img hp himg
    unfold buildIndexEntries
    apply List.mem_append_right
    rw [if_pos rfl]
    rw [List.mem_flatMap]
    refine ⟨(p, items), ?_, ?_⟩
    · simpa [List.enum] using get?_mem_enumFrom aP 0 p items hp
    · exact List.mem_map_of_mem _ himg
  · intro e he
    unfold buildIndexEntries at he
    rcases List.mem_append.mp he with h1 | h2
    · left
      rw [List.mem_flatMap] at h1
      obtain ⟨pp, hpp, hpe⟩ := h1
      obtain ⟨img, _, hie⟩ := List.mem_map.mp hpe
      have hspec := mem_enumFrom_spec oP 0 pp (by simpa [List.enum] using hpp)
      have hg2 : oP[pp.1]? = some pp.2 := by simpa using hspec.2
      have hplt : pp.1 < oP.length := by
        by_contra hge
        rw [List.getElem?_eq_none (by omega)] at hg2
        exact absurd hg2 (by simp)
      rw [← hie]
      exact ⟨rfl, rfl, hplt⟩
    · rw [if_pos rfl] at h2
      right
      rw [List.mem_flatMap] at h2
      obtain ⟨pp, hpp, hpe⟩ := h2
      obtain ⟨img, _, hie⟩ := List.mem_map.mp hpe
      have hspec := mem_enumFrom_spec aP 0 pp (by simpa [List.enum] using hpp)
      have hg2 : aP[pp.1]? = some pp.2 := by simpa using hspec.2
      have hplt : pp.1 < aP.length := by
        by_contra hge
        rw [List.getElem?_eq_none (by omega)] at hg2
        exact absurd hg2 (by simp)
      have hlt2 : oP.length + pp.1 < oP.length + aP.length := by omega
      rw [← hie]
      exact ⟨rfl, rfl, Nat.le_add_right _ _, hlt2⟩

/-- C7 witness: the two entry forms on a concrete one-page-per-section
booklet. -/
theorem C7_witness :
    mkEntry "Flute" 1 0 "original" imgA ∈
      buildIndexEntries "Flute" [[imgA]] [[imgB]] true ∧
    mkEntry "Flute" 2 1 "appendix" imgB ∈
      buildIndexEntries "Flute" [[imgA]] [[imgB]] true := by
  constructor
  · exact (C7_index_numbers "Flute" [[imgA]] [[imgB]]).1 0 [imgA] imgA (by decide)
      (by decide)
  · have h := (C7_index_numbers "Flute" [[imgA]] [[imgB]]).2.1 0 [imgB] imgB (by decide)
      (by decide)
    simpa using h

/-- C6: the sorted index entry list is a permutation of the input catalog
(one entry per image, none dropped, none duplicated) ordered by the
numeric-aware, case-insensitive title comparison; the spec's example
titles "Tune 10", "Tune 2", "tune 1" sort to "tune 1", "Tune 2",
"Tune 10". -/
theorem C6_index_permutation (instrFile : String) (catalog : List (Image α))
    (baseline : Option (List String)) (contentHeight scale gap : α) :
    List.Perm
      ((bookletIndexEntries instrFile catalog baseline contentHeight scale gap).map
        (fun e => e.title))
      (catalog.map (fun img => deriveTitle instrFile img.filename)) ∧
    (bookletIndexEntries instrFile catalog baseline contentHeight scale gap).Pairwise
      (fun a b => titleLe a.title b.title = true) ∧
    stableSortBy (fun a b => titleLe a b) ["Tune 10", "Tune 2", "tune 1"] =
      ["tune 1", "Tune 2", "Tune 10"] := by
  refine ⟨?_, ?_, by decide⟩
  · unfold bookletIndexEntries sortEntries
    dsimp only
    refine ((stableSortBy_perm _ _).map _).trans ?_
    rw [buildIndexEntries_titles]
    refine List.Perm.map _ ?_
    refine List.Perm.trans
      (List.Perm.append (groupImagesIntoPages_perm _ _ _ _) ?_)
      (partition_append_perm catalog baseline)
    by_cases hd : 0 < (partition catalog baseline).2.length
    · have hdec : decide (0 < (partition catalog baseline).2.length) = true :=
        decide_eq_true hd
      rw [hdec, if_pos rfl, if_pos rfl]
      exact groupImagesIntoPages_perm _ _ _ _
    · have hdec : decide (0 < (partition catalog baseline).2.length) = false :=
        decide_eq_false hd
      have h0 : (partition catalog baseline).2 = [] :=
        List.eq_nil_of_length_eq_zero (by omega)
      rw [hdec, if_neg (by simp), h0]
  · unfold bookletIndexEntries sortEntries
    dsimp only
    exact stableSortBy_pairwise _
      (fun (a b : IndexEntry) => titleLe_total a.title b.title)
      (fun (a b c : IndexEntry) h1 h2 => titleLe_trans a.title b.title c.title h1 h2) _

set_option maxRecDepth 16000 in
/-- C9: For four images whose scaled heights are [300, 300, 300, 300], with
contentHeight = 700 and gap = 40, the packer returns exactly two pages of two
300-height images each; a two-item page uses height 640 ≤ 700, whereas a
three-item page would use 980 > 700. -/
theorem C9_worked_example :
    groupImagesIntoPages [imgA, imgB, imgC, imgD] (700 : ℤ) 1 40 =
      [[imgA, imgB], [imgC, imgD]] ∧
    usedHeight (40 : ℤ) (mkItems [imgA, imgB] 1) = 640 ∧ (640 : ℤ) ≤ 700 ∧
    usedHeight (40 : ℤ) (mkItems [imgA, imgB, imgC] 1) = 980 ∧ (700 : ℤ) < 980 := by
  refine ⟨?_, by decide, by decide, by decide, by decide⟩
  have h1 : mkItems [imgA, imgB, imgC, imgD] (1:ℤ) =
      [⟨imgA, 300⟩, ⟨imgB, 300⟩, ⟨imgC, 300⟩, ⟨imgD, 300⟩] := by decide
  have hpbA : pickBest (capWOf (700:ℤ) 40)
      (dpOf 700 40 [⟨imgA, 300⟩, ⟨imgB, 300⟩, ⟨imgC, 300⟩, ⟨imgD, 300⟩]) = 680 :=
    pickBest_eq _ _ _ (by decide) (by decide) (by decide) (by decide)
  have hchA : chosenOf (700:ℤ) 40 [⟨imgA, 300⟩, ⟨imgB, 300⟩, ⟨imgC, 300⟩, ⟨imgD, 300⟩] = [0, 1] := by
    unfold chosenOf
    rw [hpbA]
    decide
  have hselA : knapSelect (700:ℤ) 40 [⟨imgA, 300⟩, ⟨imgB, 300⟩, ⟨imgC, 300⟩, ⟨imgD, 300⟩] = [0, 1] := by
    unfold knapSelect
    rw [hchA]
    decide
  have hstepA : knapStep (700:ℤ) 40 [⟨imgA, 300⟩, ⟨imgB, 300⟩, ⟨imgC, 300⟩, ⟨imgD, 300⟩] =
      ([⟨imgA, 300⟩, ⟨imgB, 300⟩], [⟨imgC, 300⟩, ⟨imgD, 300⟩]) := by
    unfold knapStep
    dsimp only
    rw [hselA]
    decide
  have hpbB : pickBest (capWOf (700:ℤ) 40)
      (dpOf 700 40 [⟨imgC, 300⟩, ⟨imgD, 300⟩]) = 680 :=
    pickBest_eq _ _ _ (by decide) (by decide) (by decide) (by decide)
  have hchB : chosenOf (700:ℤ) 40 [⟨imgC, 300⟩, ⟨imgD, 300⟩] = [0, 1] := by
    unfold chosenOf
    rw [hpbB]
    decide
  have hselB : knapSelect (700:ℤ) 40 [⟨imgC, 300⟩, ⟨imgD, 300⟩] = [0, 1] := by
    unfold knapSelect
    rw [hchB]
    decide
  have hstepB : knapStep (700:ℤ) 40 [⟨imgC, 300⟩, ⟨imgD, 300⟩] =
      ([⟨imgC, 300⟩, ⟨imgD, 300⟩], []) := by
    unfold knapStep
    dsimp only
    rw [hselB]
    decide
  have hK : packWithKnapsack [⟨imgA, 300⟩, ⟨imgB, 300⟩, ⟨imgC, 300⟩, ⟨imgD, 300⟩] (700:ℤ) 40 =
      [[⟨imgA, 300⟩, ⟨imgB, 300⟩], [⟨imgC, 300⟩, ⟨imgD, 300⟩]] := by
    unfold packWithKnapsack
    dsimp only
    have hov : ([⟨imgA, 300⟩, ⟨imgB, 300⟩, ⟨imgC, 300⟩, ⟨imgD, 300⟩] : List (Item ℤ)).filter
        (fun it => decide ((700:ℤ) < it.scaledHeight)) = [] := by decide
    have hre : ([⟨imgA, 300⟩, ⟨imgB, 300⟩, ⟨imgC, 300⟩, ⟨imgD, 300⟩] : List (Item ℤ)).filter
        (fun it => decide (it.scaledHeight ≤ (700:ℤ))) =
        [⟨imgA, 300⟩, ⟨imgB, 300⟩, ⟨imgC, 300⟩, ⟨imgD, 300⟩] := by decide
    rw [hov, hre]
    show [] ++ knapLoop (700:ℤ) 40 (3 + 1) [⟨imgA, 300⟩, ⟨imgB, 300⟩, ⟨imgC, 300⟩, ⟨imgD, 300⟩] =
      [[⟨imgA, 300⟩, ⟨imgB, 300⟩], [⟨imgC, 300⟩, ⟨imgD, 300⟩]]
    rw [List.nil_append, knapLoop_cons, hstepA]
    dsimp only
    show ([⟨imgA, 300⟩, ⟨imgB, 300⟩] : List (Item ℤ)) ::
        knapLoop (700:ℤ) 40 (2 + 1) [⟨imgC, 300⟩, ⟨imgD, 300⟩] =
      [[⟨imgA, 300⟩, ⟨imgB, 300⟩], [⟨imgC, 300⟩, ⟨imgD, 300⟩]]
    rw [knapLoop_cons, hstepB]
    dsimp only
    rw [knapLoop_nil]
  have hB : packWithBFD [⟨imgA, 300⟩, ⟨imgB, 300⟩, ⟨imgC, 300⟩, ⟨imgD, 300⟩] (700:ℤ) 40 =
      [[⟨imgA, 300⟩, ⟨imgB, 300⟩], [⟨imgC, 300⟩, ⟨imgD, 300⟩]] := by decide
  unfold groupImagesIntoPages groupPages
  dsimp only
  rw [h1, hB, hK]
  decide

end Claims

end Booklet
